import Mathlib

/-!
Verification development for the auto-categorization engine and storage layer
of the PW-manager bot (src/commands.py, src/storage.py).

Strings are modelled as `List Char`. Python string primitives (`split`,
`strip`, `lower`, `title`, `replace`, substring `in`) are given executable
models on the ASCII range, which is the range the source's heuristics target.
-/

namespace PW

/-- ASCII whitespace, as recognised by Python's `str.split()`/`str.strip()`
and the regex class `\s` on ASCII input. -/
def isWS (c : Char) : Bool :=
  c == ' ' || c == '\t' || c == '\n' || c == '\r' || c == '\u000b' || c == '\u000c'

/-- Python `str.lower()` (ASCII). -/
def lowerL (s : List Char) : List Char := s.map Char.toLower

/-- Python substring test `k in s`. -/
def isSubL (k s : List Char) : Bool := s.tails.any (fun t => k.isPrefixOf t)

/-- Python `str.strip()` (ASCII whitespace). -/
def pyStrip (s : List Char) : List Char :=
  ((s.dropWhile isWS).reverse.dropWhile isWS).reverse

/-- Python `str.strip(chars)`. -/
def pyStripChars (cs : List Char) (s : List Char) : List Char :=
  ((s.dropWhile (fun c => cs.contains c)).reverse.dropWhile (fun c => cs.contains c)).reverse

/-- Fuelled worker for `wsplit`; every recursive call consumes at least one
input character, so fuel equal to the input length always suffices. -/
def wsplitF : Nat → List Char → List (List Char)
  | _, [] => []
  | 0, _ => []
  | f + 1, c :: t =>
    if isWS c then wsplitF f t
    else ((c :: t).takeWhile (fun x => !isWS x)) :: wsplitF f ((c :: t).dropWhile (fun x => !isWS x))

/-- Python `str.split()`: split on whitespace runs, dropping empty pieces. -/
def wsplit (s : List Char) : List (List Char) := wsplitF s.length s

/-- One step of Python `str.title()`: the boolean records whether the previous
character was alphabetic. -/
def pyTitleGo : Bool → List Char → List Char
  | _, [] => []
  | prevAlpha, c :: t =>
    (if c.isAlpha then (if prevAlpha then c.toLower else c.toUpper) else c) :: pyTitleGo c.isAlpha t

/-- Python `str.title()` (ASCII letters). -/
def pyTitle (s : List Char) : List Char := pyTitleGo false s

/-- Fuelled worker for `pyReplaceStr`; every recursive call consumes at least
one input character, so fuel equal to the input length always suffices. -/
def pyReplaceF (old new : List Char) : Nat → List Char → List Char
  | _, [] => []
  | 0, s => s
  | f + 1, c :: t =>
    if old ≠ [] ∧ old.isPrefixOf (c :: t) then
      new ++ pyReplaceF old new f (t.drop (old.length - 1))
    else c :: pyReplaceF old new f t

/-- Python `str.replace(old, new)`: replace all non-overlapping occurrences,
left to right. -/
def pyReplaceStr (old new : List Char) (s : List Char) : List Char :=
  pyReplaceF old new s.length s

/-- The keyword set that switches on OCR-confusion substitutions in
`_clean_text_content`. -/
def ocrKeywords : List (List Char) :=
  [("username".data), ("password".data), ("user".data), ("pass".data),
   ("login".data), ("email".data)]

def hasOcrKeyword (content : List Char) : Bool :=
  ocrKeywords.any (fun k => isSubL k (lowerL content))

/-- The OCR-confusion substitution table of `_clean_text_content`, in source
(dict insertion) order. -/
def ocrReplacements : List (Char × Char) :=
  [('0', 'O'), ('1', 'I'), ('|', 'I'), ('5', 'S'),
   ('\u201C', '"'), ('\u201D', '"'), ('\u2018', '\u0027'), ('\u2019', '\u0027'),
   ('\u2013', '-'), ('\u2014', '-')]

/-- Python `word.replace(old, new)` for a single-character `old`/`new`. -/
def replaceChar (old new : Char) (w : List Char) : List Char :=
  w.map (fun c => if c == old then new else c)

/-- The per-word replacement loop of `_clean_text_content`:
`for old, new in replacements.items(): if old in word and len(word) > 2: word = word.replace(old, new)`. -/
def applyOcrFixes (w : List Char) : List Char :=
  ocrReplacements.foldl
    (fun acc p => if acc.contains p.1 ∧ 2 < acc.length then replaceChar p.1 p.2 acc else acc) w

/-- The first half of `_clean_text_content`: split on line breaks, collapse
whitespace runs inside each line, drop empty lines, rejoin with a line break. -/
def cleanLines (content : List Char) : List Char :=
  List.intercalate ['\n']
    ((content.splitOn '\n').filterMap (fun line =>
      let cleaned := List.intercalate [' '] (wsplit line)
      if cleaned = [] then none else some cleaned))

/-- The list of cleaned nonempty lines built by the first half of
`_clean_text_content`. -/
def linesOf (content : List Char) : List (List Char) :=
  (content.splitOn '\n').filterMap (fun line =>
    let cleaned := List.intercalate [' '] (wsplit line)
    if cleaned = [] then none else some cleaned)

/-- One step of the OCR-substitution loop. -/
def ocrStep (acc : List Char) (p : Char × Char) : List Char :=
  if acc.contains p.1 ∧ 2 < acc.length then replaceChar p.1 p.2 acc else acc

/-- Model of `CommandHandler._clean_text_content`: line normalization, then a
word-level pass that applies the OCR substitutions (only when the whole content
mentions one of the trigger keywords) and rejoins all words with single spaces. -/
def cleanTextContent (content : List Char) : List Char :=
  if content = [] then content
  else
    let content1 := cleanLines content
    let ws := wsplit content1
    let cleanedWords := ws.map (fun w => if hasOcrKeyword content1 then applyOcrFixes w else w)
    List.intercalate [' '] cleanedWords

/-! ## Credential / password detection (`_detect_credentials_intelligently`) -/

/-- A credential-stage finding: the dicts with `type` `'credential'` or
`'password'` built by the detectors. -/
inductive CredF where
  | cred (label username pw : List Char)
  | pwd (label pw : List Char)
deriving DecidableEq, Repr

/-- `cred.get('password', '')`. -/
def CredF.pwOf : CredF → List Char
  | .cred _ _ p => p
  | .pwd _ p => p

/-- `cred.get('username', '')`. -/
def CredF.usernameOf : CredF → List Char
  | .cred _ u _ => u
  | .pwd _ _ => []

def passwordIndicators : List (List Char) :=
  [("password".data), ("pass".data), ("pwd".data), ("key".data), ("secret".data),
   ("token".data), ("auth".data), ("login".data)]

def usernameIndicators : List (List Char) :=
  [("username".data), ("user".data), ("email".data), ("login".data), ("id".data),
   ("account".data)]

/-- The explicit nine-token blacklist repeated in the detector's guards. -/
def keywordBlacklist : List (List Char) :=
  [("user".data), ("username".data), ("password".data), ("pass".data), ("pwd".data),
   ("email".data), ("login".data), ("id".data), ("account".data)]

/-- `false_positives` of `_looks_like_password`. -/
def falsePositives : List (List Char) :=
  [("user".data), ("username".data), ("password".data), ("pass".data), ("pwd".data),
   ("gmail".data), ("email".data), ("login".data), ("account".data), ("id".data),
   ("name".data), ("label".data)]

/-- `false_prefixes` of `_looks_like_password`. -/
def falseStarts : List (List Char) :=
  [("user".data), ("email".data), ("login".data), ("account".data)]

/-- The special-character set of `_looks_like_password`. -/
def specialSet : List Char := "!@#$%^&*()_+-=[]{}|;:,.<>?".data

/-- The number of character classes present, out of upper/lower/digit/special. -/
def charTypes (w : List Char) : Nat :=
  (if w.any Char.isUpper then 1 else 0) + (if w.any Char.isLower then 1 else 0) +
    (if w.any Char.isDigit then 1 else 0) +
    (if w.any (fun c => specialSet.contains c) then 1 else 0)

/-- Model of `CommandHandler._looks_like_password`. -/
def looksLikePassword (w : List Char) : Bool :=
  if w.length < 8 then false
  else if falsePositives.contains (lowerL w) then false
  else if falseStarts.any (fun p => p.isPrefixOf (lowerL w)) then false
  else if charTypes w < 2 then false
  else if 8 ≤ w.length ∧ 3 ≤ charTypes w then true
  else if 12 ≤ w.length ∧ 2 ≤ charTypes w then true
  else false

/-- `blacklist` of `_looks_like_username`. -/
def usernameBlacklist : List (List Char) :=
  [("user".data), ("username".data), ("password".data), ("pass".data), ("pwd".data),
   ("email".data), ("login".data), ("account".data), ("id".data), ("name".data)]

/-- Model of `CommandHandler._looks_like_username`. -/
def looksLikeUsername (w : List Char) : Bool :=
  if w.length < 3 ∨ 50 < w.length then false
  else if usernameBlacklist.contains (lowerL w) then false
  else if w.contains '@' then true
  else if w.all (fun c => c.isAlpha || c.isDigit || c == '.' || c == '_' || c == '-') then true
  else false

/-- The stop-word list of `_find_label_before`. -/
def labelSkipWords : List (List Char) :=
  [("for".data), ("the".data), ("my".data), ("is".data), ("to".data), ("and".data),
   ("or".data), (":".data), ("-".data), ("–".data), ("—".data)]

/-- The characters stripped from a label candidate: `word.strip(':-–—')`. -/
def labelStripChars : List Char := [':', '-', '–', '—']

/-- The indices visited by `range(index-1, max(0, index-4), -1)`. -/
def labelIndices (index : Nat) : List Nat :=
  if index ≤ 1 then []
  else (List.range' (index - 4 + 1) (index - 1 - (index - 4))).reverse

def findLabelGo (ws : List (List Char)) : List Nat → Option (List Char)
  | [] => none
  | i :: rest =>
    let word := ws.getD i []
    if labelSkipWords.contains (lowerL word) then findLabelGo ws rest
    else
      let label := pyStrip (pyStripChars labelStripChars word)
      if 1 < label.length ∧ label.length < 50 then some (pyTitle label)
      else findLabelGo ws rest

/-- Model of `CommandHandler._find_label_before`. -/
def findLabelBefore (ws : List (List Char)) (index : Nat) : Option (List Char) :=
  findLabelGo ws (labelIndices index)

/-- The acceptance test of heuristic 1's inner loop: the `continue` guards and
the password-shape test on a candidate next word. -/
def h1pred (w : List Char) : Bool :=
  !((passwordIndicators ++ usernameIndicators).contains (lowerL w)) &&
    !(keywordBlacklist.contains (lowerL w)) &&
    (looksLikePassword w && decide (8 ≤ w.length))

/-- Heuristic 1 (context adjacency) at index `i`: scan the next up-to-4 words
for the first acceptable password. -/
def h1At (ws : List (List Char)) (i : Nat) : Option CredF :=
  match ((ws.drop (i + 1)).take 4).find? h1pred with
  | some w => some (.pwd ((findLabelBefore ws i).getD ("Detected".data)) w)
  | none => none

/-- The inner loop of heuristic 2: remembers the first username-shaped word,
then takes the first password-shaped word after it. -/
def h2Go : List (List Char) → Option (List Char) → Option (List Char × List Char)
  | [], _ => none
  | w :: rest, ouser =>
    if (passwordIndicators ++ usernameIndicators).contains (lowerL w) then h2Go rest ouser
    else if keywordBlacklist.contains (lowerL w) then h2Go rest ouser
    else
      match ouser with
      | none => if looksLikeUsername w then h2Go rest (some w) else h2Go rest none
      | some u => if looksLikePassword w then some (u, w) else h2Go rest (some u)

/-- Heuristic 2 (username+password pairing) at index `i`: scan the next
up-to-5 words. -/
def h2At (ws : List (List Char)) (i : Nat) : Option CredF :=
  match h2Go ((ws.drop (i + 1)).take 5) none with
  | some (u, p) =>
    if u ≠ [] ∧ p ≠ [] ∧ u ≠ p then
      some (.cred ((findLabelBefore ws i).getD u) u p)
    else none
  | none => none

/-- The single pass over `enumerate(words)` running heuristics 1 and 2
(`if`/`elif` on indicator-substring containment). -/
def h12 (ws : List (List Char)) : List CredF :=
  (List.range ws.length).filterMap (fun i =>
    let wl := lowerL (ws.getD i [])
    if passwordIndicators.any (fun ind => isSubL ind wl) then h1At ws i
    else if usernameIndicators.any (fun ind => isSubL ind wl) then h2At ws i
    else none)

/-- The short list checked against the value in heuristic 3's first guard. -/
def fiveBlacklist : List (List Char) :=
  [("user".data), ("username".data), ("password".data), ("pass".data), ("pwd".data)]

/-- Heuristic 3 (line-based `key: value` detection) on one line. -/
def h3Line (line : List Char) : Option CredF :=
  let l := pyStrip line
  if l = [] then none
  else if l.contains ':' then
    let key := lowerL (pyStrip (l.takeWhile (fun c => !(c == ':'))))
    let value := pyStrip ((l.dropWhile (fun c => !(c == ':'))).drop 1)
    if passwordIndicators.any (fun ind => isSubL ind key) ∧ value ≠ [] ∧
        !(fiveBlacklist.contains (lowerL value)) then
      let label0 := pyStrip (pyReplaceStr ("pwd".data) []
        (pyReplaceStr ("pass".data) [] (pyReplaceStr ("password".data) [] key)))
      let label := if label0 = [] then ("Detected".data) else label0
      if keywordBlacklist.contains (lowerL value) then none
      else if looksLikePassword value ∧ 8 ≤ value.length then
        some (.pwd (pyTitle label) value)
      else none
    else none
  else none

def h3 (content : List Char) : List CredF :=
  (content.splitOn '\n').filterMap h3Line

/-- The seven-word list checked in heuristic 4's final guard. -/
def sevenBlacklist : List (List Char) :=
  [("user".data), ("username".data), ("password".data), ("pass".data), ("pwd".data),
   ("email".data), ("login".data)]

/-- Heuristic 4 (password-shaped token with nearby indicator context) at
index `i`. -/
def h4At (ws : List (List Char)) (i : Nat) : Option CredF :=
  let w := ws.getD i []
  if looksLikePassword w ∧ 8 ≤ w.length then
    let idxs := (List.range' (i - 3) (min ws.length (i + 4) - (i - 3))).filter (fun j => j ≠ i)
    let ctx := List.intercalate [' '] (idxs.map (fun j => lowerL (ws.getD j [])))
    if (passwordIndicators ++ usernameIndicators).any (fun ind => isSubL ind ctx) then
      if !(sevenBlacklist.contains (lowerL w)) then
        some (.pwd ((findLabelBefore ws i).getD ("Detected".data)) w)
      else none
    else none
  else none

def h4 (ws : List (List Char)) : List CredF :=
  (List.range ws.length).filterMap (h4At ws)

/-- The final dedup of `_detect_credentials_intelligently`: first finding per
password value wins. -/
def dedupByPw : List CredF → List (List Char) → List CredF
  | [], _ => []
  | c :: rest, seen =>
    if seen.contains c.pwOf then dedupByPw rest seen
    else c :: dedupByPw rest (c.pwOf :: seen)

/-- Model of `CommandHandler._detect_credentials_intelligently`. -/
def detectCredentialsIntelligently (content : List Char) : List CredF :=
  let ws := wsplit content
  dedupByPw (h12 ws ++ h3 content ++ h4 ws) []

/-! ## A small backtracking regex engine

The source's remaining heuristics are built on `re` patterns.  They are
modelled by an explicit abstract syntax and a fuel-bounded backtracking
matcher with Python `re` semantics: leftmost match, alternatives tried in
written order, greedy quantifiers, one character of look-behind state for
`\b`. -/

/-- Regex abstract syntax.  `ilit` is a literal compared case-insensitively
(for patterns compiled with `re.IGNORECASE`); its argument is lowercase. -/
inductive RE where
  | eps : RE
  | cls : (Char → Bool) → RE
  | lit : List Char → RE
  | ilit : List Char → RE
  | cat : RE → RE → RE
  | alt : RE → RE → RE
  | opt : RE → RE
  | star : RE → RE
  | plus : RE → RE
  | grp : Nat → RE → RE
  | bnd : RE

/-- Captured groups: most recent capture first. -/
abbrev Caps := List (Nat × List Char)

/-- Regex `\w`. -/
def isWordChar (c : Char) : Bool := c.isAlpha || c.isDigit || c == '_'

/-- The previous-character state after consuming `consumed`. -/
def newPrev (consumed : List Char) (p : Option Char) : Option Char :=
  match consumed.getLast? with
  | some c => some c
  | none => p

/-- The backtracking matcher in continuation-passing style.  `p` is the
character just before the current position (`none` at the very start), used by
`\b`.  Greedy `opt`/`star` try the consuming branch first; `alt` tries the
left branch first.  The fuel only bounds recursion depth and is chosen large
enough for every concrete run in this file. -/
def reM : Nat → RE → Option Char → List Char → Caps →
    (Option Char → List Char → Caps → Option (List Char × Caps)) → Option (List Char × Caps)
  | 0, _, _, _, _, _ => none
  | _ + 1, .eps, p, s, g, k => k p s g
  | _ + 1, .cls q, _, s, g, k =>
    match s with
    | [] => none
    | c :: t => if q c then k (some c) t g else none
  | _ + 1, .lit l, p, s, g, k =>
    if l.isPrefixOf s then k (newPrev (s.take l.length) p) (s.drop l.length) g else none
  | _ + 1, .ilit l, p, s, g, k =>
    if l.length ≤ s.length ∧ lowerL (s.take l.length) = l then
      k (newPrev (s.take l.length) p) (s.drop l.length) g
    else none
  | f + 1, .cat a b, p, s, g, k => reM f a p s g (fun p2 s2 g2 => reM f b p2 s2 g2 k)
  | f + 1, .alt a b, p, s, g, k =>
    (reM f a p s g k).orElse (fun _ => reM f b p s g k)
  | f + 1, .opt a, p, s, g, k => (reM f a p s g k).orElse (fun _ => k p s g)
  | f + 1, .star a, p, s, g, k =>
    (reM f a p s g (fun p2 s2 g2 => reM f (.star a) p2 s2 g2 k)).orElse (fun _ => k p s g)
  | f + 1, .plus a, p, s, g, k => reM f a p s g (fun p2 s2 g2 => reM f (.star a) p2 s2 g2 k)
  | f + 1, .grp n a, p, s, g, k =>
    reM f a p s g (fun p2 s2 g2 => k p2 s2 ((n, s.take (s.length - s2.length)) :: g2))
  | _ + 1, .bnd, p, s, g, k =>
    let pw := match p with | some c => isWordChar c | none => false
    let nw := match s with | c :: _ => isWordChar c | [] => false
    if pw ≠ nw then k p s g else none

/-- Fuel that dominates the matcher's recursion depth for the fixed patterns
of this file on input `s`. -/
def reFuel (s : List Char) : Nat := 8 * s.length + 800

/-- Try to match `re` at the start of `s` with look-behind `p`: the remaining
input and the captures. -/
def reMatchAt (re : RE) (p : Option Char) (s : List Char) : Option (List Char × Caps) :=
  reM (reFuel s) re p s [] (fun _ s2 g2 => some (s2, g2))

/-- `re.finditer`: scan left to right, yield non-overlapping matches (full
match text and captures), resuming after each match; on an empty match or a
failure, advance one character. -/
def reFindGo : Nat → RE → Option Char → List Char → List (List Char × Caps)
  | 0, _, _, _ => []
  | f + 1, re, p, s =>
    match reMatchAt re p s with
    | some (rest, g) =>
      let consumed := s.take (s.length - rest.length)
      if consumed = [] then
        match s with
        | [] => []
        | c :: t => reFindGo f re (some c) t
      else (consumed, g) :: reFindGo f re (newPrev consumed p) rest
    | none =>
      match s with
      | [] => []
      | c :: t => reFindGo f re (some c) t

def reFindIter (re : RE) (s : List Char) : List (List Char × Caps) :=
  reFindGo (s.length + 1) re none s

/-- `re.search` as a boolean. -/
def reSearch (re : RE) (s : List Char) : Bool := !(reFindIter re s).isEmpty

/-- `re.match(pattern, s)` (anchored at the start only), returning captures. -/
def reMatchStart (re : RE) (s : List Char) : Option Caps :=
  (reMatchAt re none s).map (fun r => r.2)

/-- `re.match(r'^...$', s)`: anchored full match, where `$` also matches just
before a single trailing newline. -/
def reFullMatch (re : RE) (s : List Char) : Bool :=
  (reM (reFuel s) re none s []
    (fun _ rest _ => if rest = [] ∨ rest = ['\n'] then some (rest, []) else none)).isSome

def capGet (g : Caps) (n : Nat) : Option (List Char) :=
  (g.find? (fun x => x.1 == n)).map (fun x => x.2)

/-- Exactly `n` repetitions: regex `{n}`. -/
def repExact : Nat → RE → RE
  | 0, _ => .eps
  | n + 1, a => .cat a (repExact n a)

/-- At most `n` repetitions, greedy: the tail of a bounded `{m,k}`. -/
def repUpTo : Nat → RE → RE
  | 0, _ => .eps
  | n + 1, a => .opt (.cat a (repUpTo n a))

/-- `{2,}`: two or more, greedy. -/
def twoPlus (a : RE) : RE := .cat a (.plus a)

/-! ## Convenient-format detection (`_detect_convenient_formats`) -/

def notWS (c : Char) : Bool := !isWS c

def notNl (c : Char) : Bool := !(c == '\n')

def nonColonNl (c : Char) : Bool := !(c == ':') && !(c == '\n')

/-- `(?:user|username|id)`, case-insensitive, alternatives in written order. -/
def userKw : RE := .alt (.ilit ("user".data)) (.alt (.ilit ("username".data)) (.ilit ("id".data)))

/-- `(?:pass|password|pwd)`, case-insensitive. -/
def passKw : RE := .alt (.ilit ("pass".data)) (.alt (.ilit ("password".data)) (.ilit ("pwd".data)))

/-- Pattern 1: `(\w+)\s+([^\s]+)\s+([^\s]+)`. -/
def simpleRe : RE :=
  .cat (.grp 1 (.plus (.cls isWordChar)))
    (.cat (.plus (.cls isWS))
      (.cat (.grp 2 (.plus (.cls notWS)))
        (.cat (.plus (.cls isWS)) (.grp 3 (.plus (.cls notWS))))))

def conv1 (content : List Char) : List CredF :=
  (reFindIter simpleRe content).filterMap (fun m =>
    let service := (capGet m.2 1).getD []
    let user := (capGet m.2 2).getD []
    let pw := (capGet m.2 3).getD []
    if 6 ≤ pw.length ∧ 3 ≤ user.length ∧
        !(fiveBlacklist.contains (lowerL service)) ∧
        !(fiveBlacklist.contains (lowerL user)) ∧
        !(fiveBlacklist.contains (lowerL pw)) then
      some (.cred (pyTitle service) user pw)
    else none)

/-- Pattern 2: `([^:\n]+):\s*([^/\s]+)/([^\s\n]+)`. -/
def colonSlashRe : RE :=
  .cat (.grp 1 (.plus (.cls nonColonNl)))
    (.cat (.lit (":".data))
      (.cat (.star (.cls isWS))
        (.cat (.grp 2 (.plus (.cls (fun c => notWS c && !(c == '/')))))
          (.cat (.lit ("/".data)) (.grp 3 (.plus (.cls notWS)))))))

def conv2 (content : List Char) : List CredF :=
  (reFindIter colonSlashRe content).map (fun m =>
    .cred (pyTitle (pyStrip ((capGet m.2 1).getD [])))
      (pyStrip ((capGet m.2 2).getD []))
      (pyStrip ((capGet m.2 3).getD [])))

/-- Pattern 3's per-line regex `(?:user|username|id):\s*(.+)`. -/
def userLineRe : RE :=
  .cat userKw (.cat (.lit (":".data)) (.cat (.star (.cls isWS)) (.grp 1 (.plus (.cls notNl)))))

/-- Pattern 3's per-line regex `(?:pass|password|pwd):\s*(.+)`. -/
def passLineRe : RE :=
  .cat passKw (.cat (.lit (":".data)) (.cat (.star (.cls isWS)) (.grp 1 (.plus (.cls notNl)))))

/-- Pattern 3: a short service line followed by `user: X` and `pass: Y` lines. -/
def conv3 (content : List Char) : List CredF :=
  let lines := content.splitOn '\n'
  (List.range lines.length).filterMap (fun i =>
    let line := pyStrip (lines.getD i [])
    if line = [] ∨ lines.length ≤ i + 2 then none
    else if (wsplit line).length ≤ 2 ∧ line.length < 50 then
      let nextLine := if i + 1 < lines.length then pyStrip (lines.getD (i + 1) []) else []
      let thirdLine := if i + 2 < lines.length then pyStrip (lines.getD (i + 2) []) else []
      match reMatchStart userLineRe nextLine, reMatchStart passLineRe thirdLine with
      | some gu, some gp =>
        some (.cred (pyTitle line) (pyStrip ((capGet gu 1).getD []))
          (pyStrip ((capGet gp 1).getD [])))
      | _, _ => none
    else none)

/-- Pattern 4:
`(?:user|username|id)\s+([^\s]+)\s+(?:pass|password|pwd)\s+([^\s]+)(?:\s+for\s+([^\n]+))?`. -/
def keywordRe : RE :=
  .cat userKw
    (.cat (.plus (.cls isWS))
      (.cat (.grp 1 (.plus (.cls notWS)))
        (.cat (.plus (.cls isWS))
          (.cat passKw
            (.cat (.plus (.cls isWS))
              (.cat (.grp 2 (.plus (.cls notWS)))
                (.opt (.cat (.plus (.cls isWS))
                  (.cat (.ilit ("for".data))
                    (.cat (.plus (.cls isWS)) (.grp 3 (.plus (.cls notNl)))))))))))))

def conv4 (content : List Char) : List CredF :=
  (reFindIter keywordRe content).map (fun m =>
    let label := match capGet m.2 3 with
      | some sv => pyTitle (pyStrip sv)
      | none => ("Account".data)
    .cred label ((capGet m.2 1).getD []) ((capGet m.2 2).getD []))

/-- Pattern 5: `(?:pass|password|pwd)\s+(?:for\s+)?([^:\n]+):\s*([^\s\n]+)`. -/
def quickPassRe : RE :=
  .cat passKw
    (.cat (.plus (.cls isWS))
      (.cat (.opt (.cat (.ilit ("for".data)) (.plus (.cls isWS))))
        (.cat (.grp 1 (.plus (.cls nonColonNl)))
          (.cat (.lit (":".data))
            (.cat (.star (.cls isWS)) (.grp 2 (.plus (.cls notWS))))))))

def conv5 (content : List Char) : List CredF :=
  (reFindIter quickPassRe content).map (fun m =>
    .pwd (pyTitle (pyStrip ((capGet m.2 1).getD []))) (pyStrip ((capGet m.2 2).getD [])))

/-- Pattern 6's keyword guard list. -/
def sixBlacklist : List (List Char) :=
  [("user".data), ("username".data), ("password".data), ("pass".data), ("pwd".data),
   ("email".data)]

/-- Pattern 6: exactly two whitespace-separated tokens, `service password`. -/
def conv6 (content : List Char) : List CredF :=
  if (wsplit content).length = 2 then
    let p0 := (wsplit content).getD 0 []
    let p1 := (wsplit content).getD 1 []
    if 6 ≤ p1.length ∧ !(sixBlacklist.contains (lowerL p0)) then
      [.pwd (pyTitle p0) p1]
    else []
  else []

/-- The final dedup of `_detect_convenient_formats`, keyed by the whole
(type, label, username, password) tuple; first occurrence wins. -/
def dedupCreds : List CredF → List CredF → List CredF
  | [], _ => []
  | c :: rest, seen =>
    if seen.contains c then dedupCreds rest seen else c :: dedupCreds rest (c :: seen)

/-- Model of `CommandHandler._detect_convenient_formats`. -/
def detectConvenientFormats (content : List Char) : List CredF :=
  dedupCreds
    (conv1 content ++ conv2 content ++ conv3 content ++ conv4 content ++ conv5 content ++
      conv6 content) []

/-! ## Email and link detection (`_auto_categorize_and_store` stages 3–4) -/

def emailLocal1 (c : Char) : Bool :=
  c.isAlpha || c.isDigit || c == '.' || c == '_' || c == '%' || c == '+' || c == '-'

def emailLocal2 (c : Char) : Bool :=
  c.isAlpha || c.isDigit || c == '.' || c == '_' || c == '%' || c == '-'

def emailDomainC (c : Char) : Bool := c.isAlpha || c.isDigit || c == '.' || c == '-'

/-- The class `[A-Z|a-z]` (it literally contains the pipe). -/
def alphaPipe (c : Char) : Bool := c.isAlpha || c == '|'

/-- `\b[A-Za-z0-9._%+-]+@[A-Za-z0-9.-]+\.[A-Z|a-z]{2,}\b`. -/
def emailRe1 : RE :=
  .cat .bnd
    (.cat (.plus (.cls emailLocal1))
      (.cat (.lit ("@".data))
        (.cat (.plus (.cls emailDomainC))
          (.cat (.lit (".".data)) (.cat (twoPlus (.cls alphaPipe)) .bnd)))))

/-- `\b[A-Za-z0-9._%-]+@[A-Za-z0-9.-]+\.[A-Z|a-z]{2,}\b`. -/
def emailRe2 : RE :=
  .cat .bnd
    (.cat (.plus (.cls emailLocal2))
      (.cat (.lit ("@".data))
        (.cat (.plus (.cls emailDomainC))
          (.cat (.lit (".".data)) (.cat (twoPlus (.cls alphaPipe)) .bnd)))))

/-- `\b[A-Za-z0-9._%-]+\s*@\s*[A-Za-z0-9.-]+\s*\.\s*[A-Z|a-z]{2,}\b`. -/
def emailRe3 : RE :=
  .cat .bnd
    (.cat (.plus (.cls emailLocal2))
      (.cat (.star (.cls isWS))
        (.cat (.lit ("@".data))
          (.cat (.star (.cls isWS))
            (.cat (.plus (.cls emailDomainC))
              (.cat (.star (.cls isWS))
                (.cat (.lit (".".data))
                  (.cat (.star (.cls isWS)) (.cat (twoPlus (.cls alphaPipe)) .bnd)))))))))

def emailPatterns : List RE := [emailRe1, emailRe2, emailRe3]

/-- Fuelled worker for `subWsAround`; every step consumes at least one input
character, so fuel equal to the input length is always enough. -/
def subWsGo (t : Char) : Nat → List Char → List Char
  | _, [] => []
  | 0, s => s
  | f + 1, c :: s =>
    if c == t then c :: subWsGo t f (s.dropWhile isWS)
    else if isWS c then
      match (c :: s).dropWhile isWS with
      | [] => (c :: s).takeWhile isWS
      | c2 :: s2 =>
        if c2 == t then c2 :: subWsGo t f (s2.dropWhile isWS)
        else (c :: s).takeWhile isWS ++ subWsGo t f (c2 :: s2)
    else c :: subWsGo t f s

/-- `re.sub(r'\s*X\s*', 'X', s)` for a single non-whitespace character `X`:
delete the whitespace on both sides of each occurrence of `X`. -/
def subWsAround (t : Char) (s : List Char) : List Char := subWsGo t s.length s

/-- Insertion-ordered deduplication, modelling the accumulation into a Python
set followed by iteration (the model fixes insertion order; the source's set
iteration order is unspecified). -/
def dedupL : List (List Char) → List (List Char) → List (List Char)
  | [], _ => []
  | x :: rest, seen =>
    if seen.contains x then dedupL rest seen else x :: dedupL rest (x :: seen)

/-- The email stage: run the three patterns, clean whitespace around `@` and
`.`, keep the cleaned strings that still carry an `@` and a `.`. -/
def emailsFound (content : List Char) : List (List Char) :=
  dedupL
    (((emailPatterns.map (fun re => (reFindIter re content).map (fun m => m.1))).flatten).filterMap
      (fun email =>
        let c1 := subWsAround '@' email
        let c2 := subWsAround '.' c1
        if c2 ≠ [] ∧ pyStrip c2 ≠ [] ∧ c2.contains '@' ∧ c2.contains '.' then some (pyStrip c2)
        else none)) []

/-- The class `[$-_@.&+]`: the character range `$`..`_` plus four members. -/
def dollarRange (c : Char) : Bool :=
  ('$' ≤ c && c ≤ '_') || c == '@' || c == '.' || c == '&' || c == '+'

/-- The class `[!*\\(\\),]` (from the raw pattern: `!`, `*`, `\`, `(`, `)`, `,`). -/
def bangStar (c : Char) : Bool :=
  c == '!' || c == '*' || c == '\\' || c == '(' || c == ')' || c == ','

def hexDigit (c : Char) : Bool :=
  c.isDigit || ('a' ≤ c && c ≤ 'f') || ('A' ≤ c && c ≤ 'F')

/-- One alternative step of the body of the original URL pattern. -/
def urlBody1 : RE :=
  .alt (.cls Char.isAlpha)
    (.alt (.cls Char.isDigit)
      (.alt (.cls dollarRange)
        (.alt (.cls bangStar)
          (.cat (.lit ("%".data)) (.cat (.cls hexDigit) (.cls hexDigit))))))

/-- `http[s]?://(?:[a-zA-Z]|[0-9]|[$-_@.&+]|[!*\\(\\),]|(?:%[0-9a-fA-F][0-9a-fA-F]))+`. -/
def urlRe1 : RE :=
  .cat (.lit ("http".data))
    (.cat (.opt (.lit ("s".data))) (.cat (.lit ("://".data)) (.plus urlBody1)))

/-- The body of the whitespace-tolerant URL pattern: same alternatives plus `\s`. -/
def urlBody2 : RE :=
  .alt (.cls Char.isAlpha)
    (.alt (.cls Char.isDigit)
      (.alt (.cls dollarRange)
        (.alt (.cls bangStar)
          (.alt (.cat (.lit ("%".data)) (.cat (.cls hexDigit) (.cls hexDigit)))
            (.cls isWS)))))

/-- `http[s]?\s*:\s*//\s*(?:...|\s)+`. -/
def urlRe2 : RE :=
  .cat (.lit ("http".data))
    (.cat (.opt (.lit ("s".data)))
      (.cat (.star (.cls isWS))
        (.cat (.lit (":".data))
          (.cat (.star (.cls isWS))
            (.cat (.lit ("//".data)) (.cat (.star (.cls isWS)) (.plus urlBody2)))))))

def alnum (c : Char) : Bool := c.isAlpha || c.isDigit

def alnumDash (c : Char) : Bool := c.isAlpha || c.isDigit || c == '-'

/-- `\b(?:www\.)?[a-zA-Z0-9][a-zA-Z0-9-]{1,61}[a-zA-Z0-9]\.[a-zA-Z]{2,}(?:/[^\s]*)?`. -/
def urlRe3 : RE :=
  .cat .bnd
    (.cat (.opt (.lit ("www.".data)))
      (.cat (.cls alnum)
        (.cat (.cat (.cls alnumDash) (repUpTo 60 (.cls alnumDash)))
          (.cat (.cls alnum)
            (.cat (.lit (".".data))
              (.cat (twoPlus (.cls Char.isAlpha))
                (.opt (.cat (.lit ("/".data)) (.star (.cls notWS))))))))))

def urlPatterns : List RE := [urlRe1, urlRe2, urlRe3]

/-- `urlparse`-based validity check of `is_valid_url`, modelled on the
scheme-prefixed strings its caller produces: a nonempty scheme and netloc. -/
def isValidUrl (u : List Char) : Bool :=
  if ("http://".data).isPrefixOf u then
    ((u.drop 7).takeWhile (fun c => !(c == '/') && !(c == '?') && !(c == '#'))) ≠ []
  else if ("https://".data).isPrefixOf u then
    ((u.drop 8).takeWhile (fun c => !(c == '/') && !(c == '?') && !(c == '#'))) ≠ []
  else false

/-- The URL stage: run the three patterns, delete every whitespace character,
prepend `http://` when no scheme is present, keep the syntactically valid ones. -/
def urlsFound (content : List Char) : List (List Char) :=
  dedupL
    (((urlPatterns.map (fun re => (reFindIter re content).map (fun m => m.1))).flatten).filterMap
      (fun url =>
        let clean := url.filter notWS
        let clean2 :=
          if clean ≠ [] ∧ !(("http://".data).isPrefixOf clean) ∧
              !(("https://".data).isPrefixOf clean) then
            ("http://".data) ++ clean
          else clean
        if clean2 ≠ [] ∧ isValidUrl clean2 then some clean2 else none)) []

def ytChar (c : Char) : Bool := c.isAlpha || c.isDigit || c == '_' || c == '-'

/-- `(?:https?://)?(?:www\.)?(?:youtube\.com/watch\?v=|youtu\.be/)([a-zA-Z0-9_-]{11})`. -/
def youtubeRe : RE :=
  .cat (.opt (.cat (.lit ("http".data)) (.cat (.opt (.lit ("s".data))) (.lit ("://".data)))))
    (.cat (.opt (.lit ("www.".data)))
      (.cat (.alt (.lit ("youtube.com/watch?v=".data)) (.lit ("youtu.be/".data)))
        (.grp 1 (repExact 11 (.cls ytChar)))))

/-- The link-type classification chain of the URL stage. -/
def linkTypeOf (url : List Char) : List Char :=
  let ul := lowerL url
  if reSearch youtubeRe url then ("youtube".data)
  else if isSubL ("github.com".data) ul then ("github".data)
  else if isSubL ("stackoverflow.com".data) ul then ("stackoverflow".data)
  else if isSubL ("youtube.com".data) ul || isSubL ("youtu.be".data) ul then ("youtube".data)
  else if isSubL ("reddit.com".data) ul then ("reddit".data)
  else if isSubL ("twitter.com".data) ul || isSubL ("x.com".data) ul then ("twitter".data)
  else ("general".data)

/-! ## The orchestrator (`_auto_categorize_and_store`) -/

/-- One storage call issued by the orchestrator, in issue order. -/
inductive StoreEvent where
  | storeCred (label username pw : List Char)
  | storePwd (label pw : List Char)
  | storeEmail (email : List Char)
  | storeLink (url ltype : List Char)
  | storeNote (text : List Char)
deriving DecidableEq, Repr

def CredF.toEvent : CredF → StoreEvent
  | .cred l u p => .storeCred l u p
  | .pwd l p => .storePwd l p

def StoreEvent.isCredOrPwd : StoreEvent → Bool
  | .storeCred _ _ _ => true
  | .storePwd _ _ => true
  | _ => false

/-- The text the detection stages actually see: the raw message after the
10,000-character truncation and `_clean_text_content`. -/
def engineContent (content0 : List Char) : List Char :=
  cleanTextContent (if 10000 < content0.length then content0.take 10000 else content0)

/-- Model of `CommandHandler._auto_categorize_and_store`: the sequence of
storage calls it issues for a message.  Stages: emptiness guard, 10,000
character truncation, text cleaning, primary credential detection, the
convenient-format pass (only when the primary pass found nothing), email
detection, link detection, and the note fallback. -/
def autoCategorizeAndStore (content0 : List Char) : List StoreEvent :=
  if content0 = [] ∨ pyStrip content0 = [] then []
  else
    let content := engineContent content0
    let primary := detectCredentialsIntelligently content
    let conv := if primary.isEmpty then detectConvenientFormats content else []
    let emails := emailsFound content
    let urls := urlsFound content
    let structured := !emails.isEmpty || !urls.isEmpty || !primary.isEmpty
    let notes :=
      if !(("!".data).isPrefixOf content) ∧ pyStrip content ≠ [] then
        if structured = false ∨ 50 < (pyStrip content).length then
          [StoreEvent.storeNote (pyStrip content)]
        else []
      else []
    primary.map CredF.toEvent ++ conv.map CredF.toEvent ++ emails.map StoreEvent.storeEmail ++
      urls.map (fun u => StoreEvent.storeLink u (linkTypeOf u)) ++ notes

/-! ## The storage layer (`storage.py`)

Each `store_*` coroutine is modelled as a total state transformer on an
explicit storage state.  A raised `ValueError` is caught by the source's
`except` clause with the write skipped, so a failed validation leaves the
state unchanged.  SQLite timestamps are modelled by an explicit clock
argument `now` (seconds, as an integer). -/

def MAX_CONTENT_LENGTH : Nat := 10000

def MAX_LABEL_LENGTH : Nat := 200

def MAX_USERNAME_LENGTH : Nat := 200

def MAX_PASSWORD_LENGTH : Nat := 500

def MAX_EMAIL_LENGTH : Nat := 320

def MAX_URL_LENGTH : Nat := 2000

/-- The sanitization in `_validate_content`:
`re.sub(r'[;\'"\\]', '', content)`. -/
def sanitize (s : List Char) : List Char :=
  s.filter (fun c => !(c == ';') && !(c == '\u0027') && !(c == '"') && !(c == '\\'))

/-- Model of `UserStorage._validate_content`: reject empty input, strip,
reject over-length content, then remove the SQL-injection characters. -/
def validateContent (content : List Char) (maxLen : Nat) : Except Unit (List Char) :=
  if content = [] then .error ()
  else
    let c := pyStrip content
    if maxLen < c.length then .error ()
    else .ok (sanitize c)

/-- Model of `UserStorage._validate_user_id` (string user ids). -/
def validateUserId (u : List Char) : Except Unit (List Char) :=
  if u = [] then .error () else .ok (pyStrip u)

/-- `^[a-zA-Z0-9._%+-]+@[a-zA-Z0-9.-]+\.[a-zA-Z]{2,}$`. -/
def emailValRe : RE :=
  .cat (.plus (.cls emailLocal1))
    (.cat (.lit ("@".data))
      (.cat (.plus (.cls emailDomainC))
        (.cat (.lit (".".data)) (twoPlus (.cls Char.isAlpha)))))

/-- Model of `UserStorage._validate_email`. -/
def validateEmail (email : List Char) : Except Unit (List Char) := do
  let e ← validateContent email MAX_EMAIL_LENGTH
  if reFullMatch emailValRe e then pure e else .error ()

/-- `^https?://[^\s/$.?#].[^\s]*$`. -/
def urlValRe : RE :=
  .cat (.lit ("http".data))
    (.cat (.opt (.lit ("s".data)))
      (.cat (.lit ("://".data))
        (.cat (.cls (fun c => notWS c && !(c == '/') && !(c == '$') && !(c == '.') &&
            !(c == '?') && !(c == '#')))
          (.cat (.cls notNl) (.star (.cls notWS))))))

/-- Model of `UserStorage._validate_url`. -/
def validateUrl (url : List Char) : Except Unit (List Char) := do
  let u ← validateContent url MAX_URL_LENGTH
  if reFullMatch urlValRe u then pure u else .error ()

structure CredRec where
  user : List Char
  label : List Char
  username : List Char
  pw : List Char
deriving DecidableEq, Repr

structure PwdRec where
  user : List Char
  label : List Char
  pw : List Char
deriving DecidableEq, Repr

structure NoteRec where
  user : List Char
  note : List Char
  ts : Int
deriving DecidableEq, Repr

structure EmailRec where
  user : List Char
  email : List Char
  label : Option (List Char)
deriving DecidableEq, Repr

structure LinkRec where
  user : List Char
  url : List Char
  ltype : Option (List Char)
deriving DecidableEq, Repr

structure MsgRec where
  user : List Char
  content : List Char
  mtype : List Char
deriving DecidableEq, Repr

/-- The database state: one list per table, in insertion order. -/
structure Storage where
  creds : List CredRec
  pwds : List PwdRec
  notes : List NoteRec
  emails : List EmailRec
  links : List LinkRec
  msgs : List MsgRec
deriving DecidableEq, Repr

def emptyStorage : Storage := ⟨[], [], [], [], [], []⟩

/-- `store_credential`: skip when the exact quadruple exists, otherwise
`INSERT OR REPLACE` under `UNIQUE(user_id, label)`. -/
def storeCredential (st : Storage) (user label username pw : List Char) : Storage :=
  match validateUserId user, validateContent label MAX_LABEL_LENGTH,
      validateContent username MAX_USERNAME_LENGTH,
      validateContent pw MAX_PASSWORD_LENGTH with
  | .ok u, .ok l, .ok n, .ok p =>
    if st.creds.any (fun r => r.user == u && r.label == l && r.username == n && r.pw == p) then
      st
    else
      { st with
        creds := st.creds.filter (fun r => !(r.user == u && r.label == l)) ++ [⟨u, l, n, p⟩] }
  | _, _, _, _ => st

/-- `store_password`: skip when the exact triple exists, otherwise
`INSERT OR REPLACE` under `UNIQUE(user_id, label)`. -/
def storePassword (st : Storage) (user label pw : List Char) : Storage :=
  match validateUserId user, validateContent label MAX_LABEL_LENGTH,
      validateContent pw MAX_PASSWORD_LENGTH with
  | .ok u, .ok l, .ok p =>
    if st.pwds.any (fun r => r.user == u && r.label == l && r.pw == p) then st
    else
      { st with pwds := st.pwds.filter (fun r => !(r.user == u && r.label == l)) ++ [⟨u, l, p⟩] }
  | _, _, _ => st

/-- `store_note`: skip when an identical note was stored within the last hour
(`timestamp > datetime('now', '-1 hour')`), otherwise append. -/
def storeNote (st : Storage) (now : Int) (user note : List Char) : Storage :=
  match validateUserId user, validateContent note MAX_CONTENT_LENGTH with
  | .ok u, .ok n =>
    if st.notes.any (fun r => r.user == u && r.note == n && decide (now - 3600 < r.ts)) then st
    else { st with notes := st.notes ++ [⟨u, n, now⟩] }
  | _, _ => st

/-- `store_email`: skip when the (user, email) pair exists, otherwise append. -/
def storeEmail (st : Storage) (user email : List Char) (label : Option (List Char)) : Storage :=
  match validateUserId user, validateEmail email,
      (match label with
       | none => Except.ok none
       | some l => (validateContent l MAX_LABEL_LENGTH).map some) with
  | .ok u, .ok e, .ok ol =>
    if st.emails.any (fun r => r.user == u && r.email == e) then st
    else { st with emails := st.emails ++ [⟨u, e, ol⟩] }
  | _, _, _ => st

/-- `store_link`: skip when the (user, url) pair exists, otherwise append. -/
def storeLink (st : Storage) (user url : List Char) (ltype : Option (List Char)) : Storage :=
  match validateUserId user, validateUrl url,
      (match ltype with
       | none => Except.ok none
       | some t => (validateContent t 50).map some) with
  | .ok u, .ok w, .ok ot =>
    if st.links.any (fun r => r.user == u && r.url == w) then st
    else { st with links := st.links ++ [⟨u, w, ot⟩] }
  | _, _, _ => st

/-- `store_message`: append-only audit log. -/
def storeMessage (st : Storage) (user content mtype : List Char) : Storage :=
  match validateUserId user, validateContent content MAX_CONTENT_LENGTH,
      validateContent mtype 50 with
  | .ok u, .ok c, .ok t => { st with msgs := st.msgs ++ [⟨u, c, t⟩] }
  | _, _, _ => st

/-- No character removed by `_validate_content`'s sanitization is present:
none of `;`, `'`, `"`, `\\`. -/
def noBadChars (s : List Char) : Bool :=
  s.all (fun c => !(c == ';') && !(c == '\u0027') && !(c == '"') && !(c == '\\'))

/-- Every value persisted in the state has been stripped of the four
SQL-injection characters (user ids are only stripped, not sanitized, and are
deliberately not covered). -/
def StorageClean (st : Storage) : Prop :=
  (∀ r ∈ st.creds, noBadChars r.label = true ∧ noBadChars r.username = true ∧
    noBadChars r.pw = true) ∧
  (∀ r ∈ st.pwds, noBadChars r.label = true ∧ noBadChars r.pw = true) ∧
  (∀ r ∈ st.notes, noBadChars r.note = true) ∧
  (∀ r ∈ st.emails, noBadChars r.email = true ∧ ∀ l, r.label = some l → noBadChars l = true) ∧
  (∀ r ∈ st.links, noBadChars r.url = true ∧ ∀ t, r.ltype = some t → noBadChars t = true) ∧
  (∀ r ∈ st.msgs, noBadChars r.content = true ∧ noBadChars r.mtype = true)

/-- The normalizer as C8 describes it: split on line breaks, collapse
whitespace runs within each line, drop empty lines, rejoin with a single line
break.  This is exactly the first half of `_clean_text_content`
(`cleanLines`); the claim asserts the whole normalizer behaves like it. -/
def specLineNormalize (s : List Char) : List Char := cleanLines s

/-! ## Basic lemmas about the split/strip primitives -/

theorem wsplitF_congr : ∀ f g : Nat, ∀ s : List Char,
    s.length ≤ f → s.length ≤ g → wsplitF f s = wsplitF g s := by
  intro f
  induction f with
  | zero =>
    intro g s hf _
    have : s = [] := List.eq_nil_of_length_eq_zero (Nat.le_zero.mp hf)
    subst this
    cases g <;> rfl
  | succ f ih =>
    intro g s hf hg
    cases s with
    | nil => cases g <;> rfl
    | cons c t =>
      cases g with
      | zero => simp at hg
      | succ g =>
        simp only [List.length_cons] at hf hg
        simp only [wsplitF]
        by_cases hc : isWS c
        · simp only [hc, if_true]
          exact ih g t (by omega) (by omega)
        · have hdrop : ((c :: t).dropWhile (fun x => !isWS x)).length ≤ t.length := by
            simp only [List.dropWhile_cons, hc]
            simp only [Bool.not_false, if_true]
            exact (List.dropWhile_sublist _).length_le
          simp only [hc, Bool.false_eq_true, if_false]
          rw [ih g _ (by omega) (by omega)]

theorem wsplit_cons_ws {c : Char} (t : List Char) (hc : isWS c = true) :
    wsplit (c :: t) = wsplit t := by
  simp only [wsplit, List.length_cons, wsplitF, hc, if_true]

theorem wsplit_cons_word {c : Char} (t : List Char) (hc : isWS c = false) :
    wsplit (c :: t) =
      ((c :: t).takeWhile (fun x => !isWS x)) :: wsplit ((c :: t).dropWhile (fun x => !isWS x)) := by
  have hdrop : ((c :: t).dropWhile (fun x => !isWS x)).length ≤ t.length := by
    simp only [List.dropWhile_cons, hc]
    simp only [Bool.not_false, if_true]
    exact (List.dropWhile_sublist _).length_le
  simp only [wsplit, List.length_cons, wsplitF, hc]
  rw [wsplitF_congr t.length _ _ hdrop (Nat.le_refl _)]
  simp

/-- The recursion principle that follows `wsplit`'s call structure. -/
theorem wsplit_rec {motive : List Char → Prop} (h0 : motive [])
    (h1 : ∀ c t, isWS c = true → motive t → motive (c :: t))
    (h2 : ∀ c t, isWS c = false → motive ((c :: t).dropWhile (fun x => !isWS x)) →
      motive (c :: t)) :
    ∀ s, motive s := by
  have main : ∀ n s, (s : List Char).length ≤ n → motive s := by
    intro n
    induction n with
    | zero =>
      intro s hs
      have : s = [] := List.eq_nil_of_length_eq_zero (Nat.le_zero.mp hs)
      simpa [this] using h0
    | succ n ih =>
      intro s hs
      cases s with
      | nil => exact h0
      | cons c t =>
        simp only [List.length_cons] at hs
        by_cases hc : isWS c
        · exact h1 c t hc (ih t (by omega))
        · refine h2 c t (by simpa using hc) (ih _ ?_)
          have : ((c :: t).dropWhile (fun x => !isWS x)).length ≤ t.length := by
            simp only [List.dropWhile_cons, hc]
            simp only [Bool.not_false, if_true]
            exact (List.dropWhile_sublist _).length_le
          omega
  exact fun s => main s.length s (Nat.le_refl _)

theorem wsplit_all_ws : ∀ s : List Char, (∀ c ∈ s, isWS c = true) → wsplit s = [] := by
  intro s
  induction s using wsplit_rec with
  | h0 => intro _; rfl
  | h1 c t hc ih =>
    intro h
    rw [wsplit_cons_ws t hc]
    exact ih (fun x hx => h x (List.mem_cons_of_mem c hx))
  | h2 c t hc _ =>
    intro h
    exact absurd (h c (List.mem_cons_self c t)) (by simp [hc])

theorem pyStrip_eq_nil_iff {s : List Char} : pyStrip s = [] ↔ ∀ c ∈ s, isWS c = true := by
  unfold pyStrip
  rw [List.reverse_eq_nil_iff, List.dropWhile_eq_nil_iff]
  constructor
  · intro h c hc
    have hs : s.takeWhile isWS ++ s.dropWhile isWS = s := List.takeWhile_append_dropWhile isWS s
    rw [← hs] at hc
    rcases List.mem_append.mp hc with h1 | h2
    · exact List.mem_takeWhile_imp h1
    · exact h c (List.mem_reverse.mpr h2)
  · intro h c hc
    exact h c ((List.dropWhile_sublist isWS).mem (List.mem_reverse.mp hc))

theorem splitOn_mem_subset {s line : List Char} (hl : line ∈ s.splitOn '\n') :
    ∀ c ∈ line, c ∈ s := by
  induction s generalizing line with
  | nil =>
    intro c hc
    simp only [List.splitOn, List.splitOnP_nil, List.mem_singleton] at hl
    subst hl
    simp at hc
  | cons c0 t ih =>
    intro c hc
    simp only [List.splitOn, List.splitOnP_cons] at hl
    by_cases h0 : c0 = '\n'
    · simp only [h0, beq_self_eq_true, if_true, List.mem_cons] at hl
      rcases hl with rfl | hl
      · simp at hc
      · exact List.mem_cons_of_mem _ (ih (by simpa [List.splitOn] using hl) c hc)
    · rw [if_neg (by simpa using h0)] at hl
      rcases hsp : t.splitOn '\n' with _ | ⟨hd, rest⟩
      · exact absurd hsp (List.splitOnP_ne_nil _ t)
      · simp only [List.splitOn] at hsp
        rw [hsp, List.modifyHead_cons] at hl
        rcases List.mem_cons.mp hl with rfl | hl2
        · rcases List.mem_cons.mp hc with rfl | hc2
          · exact List.mem_cons_self _ _
          · refine List.mem_cons_of_mem _ (ih ?_ c hc2)
            rw [List.splitOn, hsp]
            exact List.mem_cons_self _ _
        · refine List.mem_cons_of_mem _ (ih ?_ c hc)
          rw [List.splitOn, hsp]
          exact List.mem_cons_of_mem _ hl2

theorem cleanTextContent_of_all_ws {s : List Char} (h : ∀ c ∈ s, isWS c = true) :
    cleanTextContent s = [] := by
  unfold cleanTextContent
  by_cases hs : s = []
  · simp [hs]
  · rw [if_neg hs]
    have hclean : cleanLines s = [] := by
      unfold cleanLines
      have : (s.splitOn '\n').filterMap (fun line =>
          let cleaned := List.intercalate [' '] (wsplit line)
          if cleaned = [] then none else some cleaned) = [] := by
        rw [List.filterMap_eq_nil_iff]
        intro line hline
        have hws : wsplit line = [] :=
          wsplit_all_ws line (fun c hc => h c (splitOn_mem_subset hline c hc))
        simp only [hws]
        rfl
      rw [this]
      rfl
    rw [hclean]
    rfl

theorem engineContent_of_strip_nil {s : List Char} (h : pyStrip s = []) :
    engineContent s = [] := by
  unfold engineContent
  have hall : ∀ c ∈ s, isWS c = true := pyStrip_eq_nil_iff.mp h
  split
  · exact cleanTextContent_of_all_ws (fun c hc => hall c (List.mem_of_mem_take hc))
  · exact cleanTextContent_of_all_ws hall

theorem isCredOrPwd_toEvent (f : CredF) : (CredF.toEvent f).isCredOrPwd = true := by
  cases f <;> rfl

/-! ## Claim theorems: concrete evaluations -/

/-- C2: for the input `"gmail john@email.com mypassword123"` the engine does
not emit the single Credential{Gmail, john@email.com, mypassword123} the claim
describes.  The OCR pass rewrites `1` to `I` (the content mentions `pass` and
`email`), heuristic 4 classifies both `john@email.com` and `mypasswordI23` as
stand-alone passwords, and no Credential finding is produced; the email and a
bare-domain link are also stored, and the Note is suppressed.  This theorem
evaluates the engine at the claim's input. -/
theorem simple_format_input_yields_two_garbled_passwords :
    autoCategorizeAndStore ("gmail john@email.com mypassword123".data) =
      [StoreEvent.storePwd ("Detected".data) ("john@email.com".data),
       StoreEvent.storePwd ("John@Email.Com".data) ("mypasswordI23".data),
       StoreEvent.storeEmail ("john@email.com".data),
       StoreEvent.storeLink ("http://email.com".data) ("general".data)] ∧
    (autoCategorizeAndStore ("gmail john@email.com mypassword123".data)).all
      (fun e => !(e == StoreEvent.storeCred ("Gmail".data) ("john@email.com".data)
        ("mypassword123".data))) := by
  decide

/-- C4: for the input `"password: gmail mySecretPass1"` the engine does not
emit Password{label="Gmail", password="mySecretPass1"}.  The OCR pass rewrites
the password to `mySecretPassI`; heuristic 1 fires first with fallback label
`Detected`, heuristic 3 takes the whole text after the colon as a password,
and heuristic 4's `Gmail`-labelled finding is deduplicated away by password
value.  This theorem evaluates the engine at the claim's input. -/
theorem quick_password_input_yields_detected_garbled_passwords :
    autoCategorizeAndStore ("password: gmail mySecretPass1".data) =
      [StoreEvent.storePwd ("Detected".data) ("mySecretPassI".data),
       StoreEvent.storePwd ("Detected".data) ("gmail mySecretPassI".data)] ∧
    (autoCategorizeAndStore ("password: gmail mySecretPass1".data)).all
      (fun e => !(e == StoreEvent.storePwd ("Gmail".data) ("mySecretPass1".data))) := by
  decide

/-- C1 counterexample: the convenient-format pass guards only against the five
tokens user/username/password/pass/pwd, so for the input
`"gmail email account"` (on which the primary pass finds nothing) it stores a
Credential whose username is the reserved keyword `email` and whose password
is the reserved keyword `account`, refuting the claimed invariant. -/
theorem convenient_format_stores_reserved_keywords :
    StoreEvent.storeCred ("Gmail".data) ("email".data) ("account".data) ∈
      autoCategorizeAndStore ("gmail email account".data) ∧
    ("email".data) ∈ keywordBlacklist ∧ ("account".data) ∈ keywordBlacklist := by
  decide

/-- C8 counterexample: the full normalizer is not the line-rejoining function
the claim describes: for `"a\nb"` the claimed behaviour keeps the line break,
but the word-level OCR pass rejoins all words with single spaces, so the
normalizer returns the single line `"a b"`. -/
theorem normalizer_not_line_preserving :
    cleanTextContent ("a\nb".data) = ("a b".data) ∧
    specLineNormalize ("a\nb".data) = ("a\nb".data) ∧
    cleanTextContent ("a\nb".data) ≠ specLineNormalize ("a\nb".data) := by
  decide


/-- C5: the convenient-format pass is suppressed whenever the primary pass
found anything: when `_detect_credentials_intelligently` returns at least one
finding for the cleaned message, the credential/password storage calls of
`_auto_categorize_and_store` are exactly the primary findings — no
convenient-format finding is stored. -/
theorem convenient_pass_runs_only_when_primary_empty (content : List Char)
    (h : detectCredentialsIntelligently (engineContent content) ≠ []) :
    (autoCategorizeAndStore content).filter StoreEvent.isCredOrPwd =
      (detectCredentialsIntelligently (engineContent content)).map CredF.toEvent := by
  unfold autoCategorizeAndStore
  have hguard : ¬(content = [] ∨ pyStrip content = []) := by
    rintro (rfl | hstrip)
    · exact h (by decide)
    · exact h (by rw [engineContent_of_strip_nil hstrip]; decide)
  rw [if_neg hguard]
  have hne : (detectCredentialsIntelligently (engineContent content)).isEmpty = false := by
    simpa [List.isEmpty_iff] using h
  simp only [hne, Bool.false_eq_true, if_false, List.map_nil, List.filter_append]
  have h1 : ((detectCredentialsIntelligently (engineContent content)).map CredF.toEvent).filter
      StoreEvent.isCredOrPwd =
      (detectCredentialsIntelligently (engineContent content)).map CredF.toEvent := by
    rw [List.filter_eq_self]
    intro e he
    rcases List.mem_map.mp he with ⟨f, _, rfl⟩
    exact isCredOrPwd_toEvent f
  have h2 : ((emailsFound (engineContent content)).map StoreEvent.storeEmail).filter
      StoreEvent.isCredOrPwd = [] := by
    rw [List.filter_eq_nil_iff]
    intro e he
    rcases List.mem_map.mp he with ⟨x, _, rfl⟩
    simp [StoreEvent.isCredOrPwd]
  have h3 : ((urlsFound (engineContent content)).map
      (fun u => StoreEvent.storeLink u (linkTypeOf u))).filter StoreEvent.isCredOrPwd = [] := by
    rw [List.filter_eq_nil_iff]
    intro e he
    rcases List.mem_map.mp he with ⟨x, _, rfl⟩
    simp [StoreEvent.isCredOrPwd]
  rw [h1, h2, h3]
  split
  · split
    · simp [StoreEvent.isCredOrPwd]
    · simp
  · simp


/-- C5 witness at a concrete input on which the primary pass fires. -/
theorem convenient_pass_suppressed_witness :
    (autoCategorizeAndStore ("password Abcdef123".data)).filter StoreEvent.isCredOrPwd =
      (detectCredentialsIntelligently
        (engineContent ("password Abcdef123".data))).map CredF.toEvent :=
  convenient_pass_runs_only_when_primary_empty ("password Abcdef123".data) (by decide)

/-! ## Storage lemmas -/

theorem validateContent_error_of_long {content : List Char} {maxLen : Nat}
    (h : maxLen < (pyStrip content).length) :
    validateContent content maxLen = .error () := by
  unfold validateContent
  by_cases hc : content = []
  · subst hc
    simp [pyStrip] at h
  · rw [if_neg hc, if_pos h]

theorem validateContent_ok_shape {content v : List Char} {maxLen : Nat}
    (h : validateContent content maxLen = .ok v) : v = sanitize (pyStrip content) := by
  unfold validateContent at h
  by_cases hc : content = []
  · rw [if_pos hc] at h
    cases h
  · rw [if_neg hc] at h
    by_cases hl : maxLen < (pyStrip content).length
    · rw [if_pos hl] at h
      cases h
    · rw [if_neg hl] at h
      cases h
      rfl

theorem validateEmail_error_of_nomatch {em : List Char}
    (h : reFullMatch emailValRe (sanitize (pyStrip em)) = false) :
    validateEmail em = .error () := by
  unfold validateEmail
  rcases he : validateContent em MAX_EMAIL_LENGTH with e | v
  · rfl
  · have hv := validateContent_ok_shape he
    subst hv
    exact if_neg (by simp [h])

theorem validateUrl_error_of_nomatch {url : List Char}
    (h : reFullMatch urlValRe (sanitize (pyStrip url)) = false) :
    validateUrl url = .error () := by
  unfold validateUrl
  rcases he : validateContent url MAX_URL_LENGTH with e | v
  · rfl
  · have hv := validateContent_ok_shape he
    subst hv
    exact if_neg (by simp [h])

/-- C9: a field that exceeds its length bound, or an email/URL that fails the
format regex, makes the corresponding `store_*` call a no-op: the `ValueError`
is caught internally, nothing is written, and the stored state is unchanged.
The length bounds are label/username 200, password 500, email 320, url 2000,
note 10000. -/
theorem validation_failure_leaves_state_unchanged (st : Storage)
    (user lbl un pw em url nt : List Char) (olbl oltype : Option (List Char)) (now : Int) :
    (MAX_LABEL_LENGTH < (pyStrip lbl).length → storeCredential st user lbl un pw = st) ∧
    (MAX_USERNAME_LENGTH < (pyStrip un).length → storeCredential st user lbl un pw = st) ∧
    (MAX_PASSWORD_LENGTH < (pyStrip pw).length → storeCredential st user lbl un pw = st) ∧
    (MAX_LABEL_LENGTH < (pyStrip lbl).length → storePassword st user lbl pw = st) ∧
    (MAX_PASSWORD_LENGTH < (pyStrip pw).length → storePassword st user lbl pw = st) ∧
    (MAX_EMAIL_LENGTH < (pyStrip em).length → storeEmail st user em olbl = st) ∧
    (reFullMatch emailValRe (sanitize (pyStrip em)) = false → storeEmail st user em olbl = st) ∧
    (MAX_URL_LENGTH < (pyStrip url).length → storeLink st user url oltype = st) ∧
    (reFullMatch urlValRe (sanitize (pyStrip url)) = false → storeLink st user url oltype = st) ∧
    (MAX_CONTENT_LENGTH < (pyStrip nt).length → storeNote st now user nt = st) := by
  refine ⟨?_, ?_, ?_, ?_, ?_, ?_, ?_, ?_, ?_, ?_⟩
  · intro h
    unfold storeCredential
    rw [validateContent_error_of_long h]
    cases validateUserId user <;>
      cases validateContent un MAX_USERNAME_LENGTH <;>
      cases validateContent pw MAX_PASSWORD_LENGTH <;> rfl
  · intro h
    unfold storeCredential
    rw [validateContent_error_of_long h]
    cases validateUserId user <;>
      cases validateContent lbl MAX_LABEL_LENGTH <;>
      cases validateContent pw MAX_PASSWORD_LENGTH <;> rfl
  · intro h
    unfold storeCredential
    rw [validateContent_error_of_long h]
    cases validateUserId user <;>
      cases validateContent lbl MAX_LABEL_LENGTH <;>
      cases validateContent un MAX_USERNAME_LENGTH <;> rfl
  · intro h
    unfold storePassword
    rw [validateContent_error_of_long h]
    cases validateUserId user <;> cases validateContent pw MAX_PASSWORD_LENGTH <;> rfl
  · intro h
    unfold storePassword
    rw [validateContent_error_of_long h]
    cases validateUserId user <;> cases validateContent lbl MAX_LABEL_LENGTH <;> rfl
  · intro h
    unfold storeEmail
    have he : validateEmail em = .error () := by
      unfold validateEmail
      rw [validateContent_error_of_long h]
      rfl
    rw [he]
    cases validateUserId user <;>
      cases (match olbl with
        | none => Except.ok none
        | some l => (validateContent l MAX_LABEL_LENGTH).map some) <;> rfl
  · intro h
    unfold storeEmail
    rw [validateEmail_error_of_nomatch h]
    cases validateUserId user <;>
      cases (match olbl with
        | none => Except.ok none
        | some l => (validateContent l MAX_LABEL_LENGTH).map some) <;> rfl
  · intro h
    unfold storeLink
    have he : validateUrl url = .error () := by
      unfold validateUrl
      rw [validateContent_error_of_long h]
      rfl
    rw [he]
    cases validateUserId user <;>
      cases (match oltype with
        | none => Except.ok none
        | some t => (validateContent t 50).map some) <;> rfl
  · intro h
    unfold storeLink
    rw [validateUrl_error_of_nomatch h]
    cases validateUserId user <;>
      cases (match oltype with
        | none => Except.ok none
        | some t => (validateContent t 50).map some) <;> rfl
  · intro h
    unfold storeNote
    rw [validateContent_error_of_long h]
    cases validateUserId user <;> rfl



/-- C6: `store_credential` is an upsert keyed by (user, label) that is a no-op
when the identical (label, username, password) triple is already present:
with valid inputs and a state obeying the `UNIQUE(user_id, label)` constraint,
storing twice equals storing once, and afterwards exactly one record carries
that (user, label) key. -/
theorem storeCredential_upsert_idempotent (st : Storage)
    (user lbl un pw u l n p : List Char)
    (hu : validateUserId user = .ok u)
    (hl : validateContent lbl MAX_LABEL_LENGTH = .ok l)
    (hn : validateContent un MAX_USERNAME_LENGTH = .ok n)
    (hp : validateContent pw MAX_PASSWORD_LENGTH = .ok p)
    (hinv : st.creds.Pairwise (fun r1 r2 => ¬(r1.user = r2.user ∧ r1.label = r2.label))) :
    storeCredential (storeCredential st user lbl un pw) user lbl un pw =
      storeCredential st user lbl un pw ∧
    ((storeCredential st user lbl un pw).creds.filter
      (fun r => r.user == u && r.label == l)).length = 1 := by
  have hshape : ∀ st2 : Storage, storeCredential st2 user lbl un pw =
      (if st2.creds.any
          (fun r => r.user == u && r.label == l && r.username == n && r.pw == p) then st2
       else { st2 with creds := st2.creds.filter (fun r => !(r.user == u && r.label == l)) ++
          [⟨u, l, n, p⟩] }) := by
    intro st2
    unfold storeCredential
    rw [hu, hl, hn, hp]
  rw [hshape, hshape]
  by_cases hdup :
      st.creds.any (fun r => r.user == u && r.label == l && r.username == n && r.pw == p)
  · rw [if_pos hdup, if_pos hdup]
    refine ⟨by trivial, ?_⟩
    rcases List.any_eq_true.mp hdup with ⟨r, hrmem, hr⟩
    simp only [Bool.and_eq_true, beq_iff_eq] at hr
    obtain ⟨⟨⟨hru, hrl⟩, _⟩, _⟩ := hr
    have hkey : (st.creds.filter (fun r => r.user == u && r.label == l)).Pairwise
        (fun r1 r2 => ¬(r1.user = r2.user ∧ r1.label = r2.label)) :=
      hinv.sublist (List.filter_sublist _)
    have hrfil : r ∈ st.creds.filter (fun r => r.user == u && r.label == l) := by
      rw [List.mem_filter]
      exact ⟨hrmem, by simp [hru, hrl]⟩
    rcases hfil : st.creds.filter (fun r => r.user == u && r.label == l) with _ | ⟨x, xs⟩
    · rw [hfil] at hrfil
      simp at hrfil
    · rcases xs with _ | ⟨y, ys⟩
      · rw [hfil]
        rfl
      · exfalso
        rw [hfil] at hkey
        have hx : x.user = u ∧ x.label = l := by
          have hxmem : x ∈ st.creds.filter (fun r => r.user == u && r.label == l) := by
            rw [hfil]
            exact List.mem_cons_self _ _
          simpa [Bool.and_eq_true, beq_iff_eq] using (List.mem_filter.mp hxmem).2
        have hy : y.user = u ∧ y.label = l := by
          have hymem : y ∈ st.creds.filter (fun r => r.user == u && r.label == l) := by
            rw [hfil]
            exact List.mem_cons_of_mem _ (List.mem_cons_self _ _)
          simpa [Bool.and_eq_true, beq_iff_eq] using (List.mem_filter.mp hymem).2
        exact (List.pairwise_cons.mp hkey).1 y (List.mem_cons_self _ _)
          ⟨hx.1.trans hy.1.symm, hx.2.trans hy.2.symm⟩
  · rw [if_neg hdup]
    have hany2 : ((st.creds.filter (fun r => !(r.user == u && r.label == l)) ++
        [(⟨u, l, n, p⟩ : CredRec)]).any
        (fun r => r.user == u && r.label == l && r.username == n && r.pw == p)) = true := by
      rw [List.any_eq_true]
      exact ⟨⟨u, l, n, p⟩, List.mem_append_right _ (List.mem_singleton.mpr rfl), by simp⟩
    constructor
    · dsimp only
      rw [if_pos hany2]
    · dsimp only
      rw [List.filter_append, List.filter_filter]
      have hleft : st.creds.filter
          (fun r => (r.user == u && r.label == l) && !(r.user == u && r.label == l)) = [] := by
        rw [List.filter_eq_nil_iff]
        intro r _
        cases hq : (r.user == u && r.label == l) <;> simp [hq]
      rw [hleft]
      simp

/-- C7: `store_note` suppresses an identical (user, note) pair stored within
the last hour and appends otherwise: from a state with no such note, storing
at `t0`, again at `t1` within the hour, and again at `t2` at or after the
hour boundary leaves first one and then two stored copies. -/
theorem storeNote_hour_window (st : Storage) (user note u n : List Char) (t0 t1 t2 : Int)
    (hu : validateUserId user = .ok u)
    (hn : validateContent note MAX_CONTENT_LENGTH = .ok n)
    (hfresh : ∀ r ∈ st.notes, ¬(r.user = u ∧ r.note = n))
    (h01 : t1 - t0 < 3600) (h02 : (3600 : Int) ≤ t2 - t0) :
    storeNote (storeNote st t0 user note) t1 user note = storeNote st t0 user note ∧
    (((storeNote st t0 user note).notes.filter
      (fun r => r.user == u && r.note == n)).length = 1) ∧
    (((storeNote (storeNote st t0 user note) t2 user note).notes.filter
      (fun r => r.user == u && r.note == n)).length = 2) := by
  have hshape : ∀ (st2 : Storage) (tt : Int), storeNote st2 tt user note =
      (if st2.notes.any
          (fun r => r.user == u && r.note == n && decide (tt - 3600 < r.ts)) then st2
       else { st2 with notes := st2.notes ++ [⟨u, n, tt⟩] }) := by
    intro st2 tt
    unfold storeNote
    rw [hu, hn]
  have hfilnil : st.notes.filter (fun r => r.user == u && r.note == n) = [] := by
    rw [List.filter_eq_nil_iff]
    intro r hr
    have := hfresh r hr
    simp only [Bool.and_eq_true, beq_iff_eq]
    tauto
  have hany0 : st.notes.any
      (fun r => r.user == u && r.note == n && decide (t0 - 3600 < r.ts)) = false := by
    rw [Bool.eq_false_iff]
    intro hc
    rcases List.any_eq_true.mp hc with ⟨r, hrmem, hr⟩
    simp only [Bool.and_eq_true, beq_iff_eq] at hr
    exact hfresh r hrmem ⟨hr.1.1, hr.1.2⟩
  have hst1 : storeNote st t0 user note = { st with notes := st.notes ++ [⟨u, n, t0⟩] } := by
    rw [hshape, if_neg (by simp [hany0])]
  have hany1 : ((st.notes ++ [(⟨u, n, t0⟩ : NoteRec)]).any
      (fun r => r.user == u && r.note == n && decide (t1 - 3600 < r.ts))) = true := by
    rw [List.any_eq_true]
    refine ⟨⟨u, n, t0⟩, List.mem_append_right _ (List.mem_singleton.mpr rfl), ?_⟩
    simp only [Bool.and_eq_true, beq_iff_eq]
    exact ⟨⟨by trivial, by trivial⟩, by simp only [decide_eq_true_eq]; omega⟩
  have hany2 : ((st.notes ++ [(⟨u, n, t0⟩ : NoteRec)]).any
      (fun r => r.user == u && r.note == n && decide (t2 - 3600 < r.ts))) = false := by
    rw [Bool.eq_false_iff]
    intro hc
    rcases List.any_eq_true.mp hc with ⟨r, hrmem, hr⟩
    simp only [Bool.and_eq_true, beq_iff_eq] at hr
    rcases List.mem_append.mp hrmem with hmem | hmem
    · exact hfresh r hmem ⟨hr.1.1, hr.1.2⟩
    · rcases List.mem_singleton.mp hmem with rfl
      have hts := hr.2
      simp only [decide_eq_true_eq] at hts
      omega
  refine ⟨?_, ?_, ?_⟩
  · rw [hst1, hshape]
    dsimp only
    rw [if_pos hany1]
  · rw [hst1]
    dsimp only
    rw [List.filter_append, hfilnil]
    simp
  · rw [hst1, hshape]
    dsimp only
    rw [if_neg (by simp [hany2])]
    dsimp only
    rw [List.filter_append, List.filter_append, hfilnil]
    simp


/-- C6 witness at concrete valid inputs and the empty store. -/
theorem storeCredential_upsert_witness :
    storeCredential (storeCredential emptyStorage ("1".data) ("Gmail".data) ("john".data)
        ("pw123456".data)) ("1".data) ("Gmail".data) ("john".data) ("pw123456".data) =
      storeCredential emptyStorage ("1".data) ("Gmail".data) ("john".data) ("pw123456".data) ∧
    ((storeCredential emptyStorage ("1".data) ("Gmail".data) ("john".data)
        ("pw123456".data)).creds.filter
      (fun r => r.user == ("1".data) && r.label == ("Gmail".data))).length = 1 :=
  storeCredential_upsert_idempotent emptyStorage ("1".data) ("Gmail".data) ("john".data)
    ("pw123456".data) ("1".data) ("Gmail".data) ("john".data) ("pw123456".data)
    (by rfl) (by rfl) (by rfl) (by rfl) (by simp [emptyStorage])

/-- C7 witness at concrete times 1000, 2000 (within the hour) and 4600 (at the
hour boundary). -/
theorem storeNote_hour_window_witness :
    storeNote (storeNote emptyStorage 1000 ("1".data) ("hi there".data)) 2000 ("1".data)
        ("hi there".data) =
      storeNote emptyStorage 1000 ("1".data) ("hi there".data) ∧
    (((storeNote emptyStorage 1000 ("1".data) ("hi there".data)).notes.filter
      (fun r => r.user == ("1".data) && r.note == ("hi there".data))).length = 1) ∧
    (((storeNote (storeNote emptyStorage 1000 ("1".data) ("hi there".data)) 4600 ("1".data)
        ("hi there".data)).notes.filter
      (fun r => r.user == ("1".data) && r.note == ("hi there".data))).length = 2) :=
  storeNote_hour_window emptyStorage ("1".data) ("hi there".data) ("1".data) ("hi there".data)
    1000 2000 4600 (by rfl) (by rfl) (by simp [emptyStorage]) (by decide) (by decide)

theorem noBadChars_sanitize (s : List Char) : noBadChars (sanitize s) = true := by
  rw [noBadChars, List.all_eq_true]
  intro c hc
  exact (List.mem_filter.mp hc).2

theorem validateContent_ok_noBad {content v : List Char} {maxLen : Nat}
    (h : validateContent content maxLen = .ok v) : noBadChars v = true := by
  rw [validateContent_ok_shape h]
  exact noBadChars_sanitize _

theorem validateEmail_ok_noBad {em v : List Char} (h : validateEmail em = .ok v) :
    noBadChars v = true := by
  unfold validateEmail at h
  rcases he : validateContent em MAX_EMAIL_LENGTH with e | w
  · rw [he] at h
    cases h
  · rw [he] at h
    by_cases hm : reFullMatch emailValRe w = true
    · have : v = w := by
        rw [show ((do
            let e ← Except.ok w
            if reFullMatch emailValRe e = true then pure e else Except.error ()) :
            Except Unit (List Char)) =
            (if reFullMatch emailValRe w = true then pure w else Except.error ()) from rfl,
          if_pos hm] at h
        cases h
        rfl
      rw [this]
      exact validateContent_ok_noBad he
    · exfalso
      rw [show ((do
          let e ← Except.ok w
          if reFullMatch emailValRe e = true then pure e else Except.error ()) :
          Except Unit (List Char)) =
          (if reFullMatch emailValRe w = true then pure w else Except.error ()) from rfl,
        if_neg hm] at h
      cases h

theorem validateUrl_ok_noBad {url v : List Char} (h : validateUrl url = .ok v) :
    noBadChars v = true := by
  unfold validateUrl at h
  rcases he : validateContent url MAX_URL_LENGTH with e | w
  · rw [he] at h
    cases h
  · rw [he] at h
    by_cases hm : reFullMatch urlValRe w = true
    · have : v = w := by
        rw [show ((do
            let u ← Except.ok w
            if reFullMatch urlValRe u = true then pure u else Except.error ()) :
            Except Unit (List Char)) =
            (if reFullMatch urlValRe w = true then pure w else Except.error ()) from rfl,
          if_pos hm] at h
        cases h
        rfl
      rw [this]
      exact validateContent_ok_noBad he
    · exfalso
      rw [show ((do
          let u ← Except.ok w
          if reFullMatch urlValRe u = true then pure u else Except.error ()) :
          Except Unit (List Char)) =
          (if reFullMatch urlValRe w = true then pure w else Except.error ()) from rfl,
        if_neg hm] at h
      cases h


/-- C10 (implicit): every persisted value (label, username, password, email,
url, note text, message content) has the characters `;`, `'`, `"`, `\\`
removed before it is written, so a clean store stays clean under every store
operation — and the stored value can silently differ from the submitted one:
a password submitted with a quote is stored with the quote deleted. -/
theorem stored_values_sanitized (st : Storage) (now : Int)
    (user lbl un pw em url nt ct mt : List Char) (olbl oltype : Option (List Char))
    (hclean : StorageClean st) :
    StorageClean (storeCredential st user lbl un pw) ∧
    StorageClean (storePassword st user lbl pw) ∧
    StorageClean (storeNote st now user nt) ∧
    StorageClean (storeEmail st user em olbl) ∧
    StorageClean (storeLink st user url oltype) ∧
    StorageClean (storeMessage st user ct mt) ∧
    (storePassword emptyStorage ("1".data) ("Gmail".data) ("pa\"ss1234".data)).pwds =
      [⟨("1".data), ("Gmail".data), ("pass1234".data)⟩] ∧
    ("pass1234".data) ≠ ("pa\"ss1234".data) := by
  obtain ⟨hc1, hc2, hc3, hc4, hc5, hc6⟩ := hclean
  refine ⟨?_, ?_, ?_, ?_, ?_, ?_, by decide, by decide⟩
  · unfold storeCredential
    split
    · rename_i u l n p hequ heql heqn heqp
      split
      · exact ⟨hc1, hc2, hc3, hc4, hc5, hc6⟩
      · refine ⟨?_, hc2, hc3, hc4, hc5, hc6⟩
        intro r hr
        rcases List.mem_append.mp hr with hmem | hmem
        · exact hc1 r ((List.filter_sublist _).mem hmem)
        · rcases List.mem_singleton.mp hmem with rfl
          exact ⟨validateContent_ok_noBad heql, validateContent_ok_noBad heqn,
            validateContent_ok_noBad heqp⟩
    · exact ⟨hc1, hc2, hc3, hc4, hc5, hc6⟩
  · unfold storePassword
    split
    · rename_i u l p hequ heql heqp
      split
      · exact ⟨hc1, hc2, hc3, hc4, hc5, hc6⟩
      · refine ⟨hc1, ?_, hc3, hc4, hc5, hc6⟩
        intro r hr
        rcases List.mem_append.mp hr with hmem | hmem
        · exact hc2 r ((List.filter_sublist _).mem hmem)
        · rcases List.mem_singleton.mp hmem with rfl
          exact ⟨validateContent_ok_noBad heql, validateContent_ok_noBad heqp⟩
    · exact ⟨hc1, hc2, hc3, hc4, hc5, hc6⟩
  · unfold storeNote
    split
    · rename_i u n hequ heqn
      split
      · exact ⟨hc1, hc2, hc3, hc4, hc5, hc6⟩
      · refine ⟨hc1, hc2, ?_, hc4, hc5, hc6⟩
        intro r hr
        rcases List.mem_append.mp hr with hmem | hmem
        · exact hc3 r hmem
        · rcases List.mem_singleton.mp hmem with rfl
          exact validateContent_ok_noBad heqn
    · exact ⟨hc1, hc2, hc3, hc4, hc5, hc6⟩
  · unfold storeEmail
    split
    · rename_i u e ol hequ heqe heqol
      split
      · exact ⟨hc1, hc2, hc3, hc4, hc5, hc6⟩
      · refine ⟨hc1, hc2, hc3, ?_, hc5, hc6⟩
        intro r hr
        rcases List.mem_append.mp hr with hmem | hmem
        · exact hc4 r hmem
        · rcases List.mem_singleton.mp hmem with rfl
          refine ⟨validateEmail_ok_noBad heqe, ?_⟩
          intro l2 hl2
          rcases olbl with _ | lb
          · rw [show (match (none : Option (List Char)) with
                | none => Except.ok none
                | some l => (validateContent l MAX_LABEL_LENGTH).map some) =
                (Except.ok none : Except Unit (Option (List Char))) from rfl] at heqol
            cases heqol
            cases hl2
          · rcases hv : validateContent lb MAX_LABEL_LENGTH with e2 | v
            · rw [show (match (some lb : Option (List Char)) with
                  | none => Except.ok none
                  | some l => (validateContent l MAX_LABEL_LENGTH).map some) =
                  (validateContent lb MAX_LABEL_LENGTH).map some from rfl, hv] at heqol
              cases heqol
            · rw [show (match (some lb : Option (List Char)) with
                  | none => Except.ok none
                  | some l => (validateContent l MAX_LABEL_LENGTH).map some) =
                  (validateContent lb MAX_LABEL_LENGTH).map some from rfl, hv] at heqol
              rw [show ((Except.ok v : Except Unit (List Char)).map some) =
                (Except.ok (some v) : Except Unit (Option (List Char))) from rfl] at heqol
              cases heqol
              cases hl2
              exact validateContent_ok_noBad hv
    · exact ⟨hc1, hc2, hc3, hc4, hc5, hc6⟩
  · unfold storeLink
    split
    · rename_i u w ot hequ heqw heqot
      split
      · exact ⟨hc1, hc2, hc3, hc4, hc5, hc6⟩
      · refine ⟨hc1, hc2, hc3, hc4, ?_, hc6⟩
        intro r hr
        rcases List.mem_append.mp hr with hmem | hmem
        · exact hc5 r hmem
        · rcases List.mem_singleton.mp hmem with rfl
          refine ⟨validateUrl_ok_noBad heqw, ?_⟩
          intro t2 ht2
          rcases oltype with _ | tb
          · rw [show (match (none : Option (List Char)) with
                | none => Except.ok none
                | some t => (validateContent t 50).map some) =
                (Except.ok none : Except Unit (Option (List Char))) from rfl] at heqot
            cases heqot
            cases ht2
          · rcases hv : validateContent tb 50 with e2 | v
            · rw [show (match (some tb : Option (List Char)) with
                  | none => Except.ok none
                  | some t => (validateContent t 50).map some) =
                  (validateContent tb 50).map some from rfl, hv] at heqot
              cases heqot
            · rw [show (match (some tb : Option (List Char)) with
                  | none => Except.ok none
                  | some t => (validateContent t 50).map some) =
                  (validateContent tb 50).map some from rfl, hv] at heqot
              rw [show ((Except.ok v : Except Unit (List Char)).map some) =
                (Except.ok (some v) : Except Unit (Option (List Char))) from rfl] at heqot
              cases heqot
              cases ht2
              exact validateContent_ok_noBad hv
    · exact ⟨hc1, hc2, hc3, hc4, hc5, hc6⟩
  · unfold storeMessage
    split
    · rename_i u c t hequ heqc heqt
      refine ⟨hc1, hc2, hc3, hc4, hc5, ?_⟩
      intro r hr
      rcases List.mem_append.mp hr with hmem | hmem
      · exact hc6 r hmem
      · rcases List.mem_singleton.mp hmem with rfl
        exact ⟨validateContent_ok_noBad heqc, validateContent_ok_noBad heqt⟩
    · exact ⟨hc1, hc2, hc3, hc4, hc5, hc6⟩


/-- C10 witness: the empty store is clean, storing keeps it clean, and the
concrete password `pa"ss1234` is persisted as `pass1234`. -/
theorem stored_values_sanitized_witness :
    StorageClean (storeCredential emptyStorage ("1".data) ("Gmail".data) ("john".data)
      ("pw123456".data)) ∧
    (storePassword emptyStorage ("1".data) ("Gmail".data) ("pa\"ss1234".data)).pwds =
      [⟨("1".data), ("Gmail".data), ("pass1234".data)⟩] ∧
    ("pass1234".data) ≠ ("pa\"ss1234".data) := by
  have h := stored_values_sanitized emptyStorage 0 ("1".data) ("Gmail".data) ("john".data)
    ("pw123456".data) ("a@b.co".data) ("http://x.co".data) ("note x".data) ("msg x".data)
    ("text".data) none none (by simp [StorageClean, emptyStorage])
  exact ⟨h.1, h.2.2.2.2.2.2.1, h.2.2.2.2.2.2.2⟩


/-! ## The reserved-keyword guard of the primary heuristics -/

theorem looksLikePassword_not_reserved {w : List Char} (h : looksLikePassword w = true) :
    ¬ lowerL w ∈ keywordBlacklist := by
  intro hmem
  have hcont : falsePositives.contains (lowerL w) = true := by
    rw [List.elem_iff]
    simp only [keywordBlacklist, List.mem_cons, List.not_mem_nil, or_false] at hmem
    rcases hmem with h9 | h9 | h9 | h9 | h9 | h9 | h9 | h9 | h9 <;> rw [h9] <;> decide
  unfold looksLikePassword at h
  rw [hcont] at h
  by_cases hlen : w.length < 8
  · rw [if_pos hlen] at h
    cases h
  · rw [if_neg hlen, if_pos rfl] at h
    cases h

theorem looksLikeUsername_not_reserved {w : List Char} (h : looksLikeUsername w = true) :
    ¬ lowerL w ∈ keywordBlacklist := by
  intro hmem
  have hcont : usernameBlacklist.contains (lowerL w) = true := by
    rw [List.elem_iff]
    simp only [keywordBlacklist, List.mem_cons, List.not_mem_nil, or_false] at hmem
    rcases hmem with h9 | h9 | h9 | h9 | h9 | h9 | h9 | h9 | h9 <;> rw [h9] <;> decide
  unfold looksLikeUsername at h
  rw [hcont] at h
  by_cases hlen : w.length < 3 ∨ 50 < w.length
  · rw [if_pos hlen] at h
    cases h
  · rw [if_neg hlen, if_pos rfl] at h
    cases h

/-- What any finding of heuristic 1 looks like. -/
theorem h1At_shape {ws : List (List Char)} {i : Nat} {f : CredF} (h : h1At ws i = some f) :
    ∃ lab w, f = CredF.pwd lab w ∧ looksLikePassword w = true := by
  unfold h1At at h
  rcases hfind : ((ws.drop (i + 1)).take 4).find? h1pred with _ | w
  · rw [hfind] at h
    cases h
  · rw [hfind] at h
    cases h
    have hp := List.find?_some hfind
    unfold h1pred at hp
    simp only [Bool.and_eq_true] at hp
    exact ⟨_, w, rfl, hp.2.1⟩

/-- Invariant of heuristic 2's inner scan. -/
theorem h2Go_spec : ∀ (l : List (List Char)) (ouser : Option (List Char))
    (r : List Char × List Char),
    (∀ x, ouser = some x → looksLikeUsername x = true) → h2Go l ouser = some r →
    looksLikeUsername r.1 = true ∧ looksLikePassword r.2 = true := by
  intro l
  induction l with
  | nil =>
    intro ouser r _ h
    cases h
  | cons w rest ih =>
    intro ouser r hinv h
    unfold h2Go at h
    by_cases h1 : (passwordIndicators ++ usernameIndicators).contains (lowerL w) = true
    · rw [if_pos h1] at h
      exact ih ouser r hinv h
    · rw [if_neg h1] at h
      by_cases h2 : keywordBlacklist.contains (lowerL w) = true
      · rw [if_pos h2] at h
        exact ih ouser r hinv h
      · rw [if_neg h2] at h
        rcases ouser with _ | u
        · have h4 : (if looksLikeUsername w = true then h2Go rest (some w)
              else h2Go rest none) = some r := h
          by_cases h3 : looksLikeUsername w = true
          · rw [if_pos h3] at h4
            refine ih (some w) r ?_ h4
            intro x hx
            cases hx
            exact h3
          · rw [if_neg h3] at h4
            exact ih none r (fun x hx => by cases hx) h4
        · have h4 : (if looksLikePassword w = true then some (u, w)
              else h2Go rest (some u)) = some r := h
          by_cases h3 : looksLikePassword w = true
          · rw [if_pos h3] at h4
            cases h4
            exact ⟨hinv u rfl, h3⟩
          · rw [if_neg h3] at h4
            exact ih (some u) r hinv h4

/-- What any finding of heuristic 2 looks like. -/
theorem h2At_shape {ws : List (List Char)} {i : Nat} {f : CredF} (h : h2At ws i = some f) :
    ∃ lab u p, f = CredF.cred lab u p ∧ looksLikeUsername u = true ∧
      looksLikePassword p = true := by
  unfold h2At at h
  rcases hgo : h2Go ((ws.drop (i + 1)).take 5) none with _ | r
  · rw [hgo] at h
    cases h
  · rw [hgo] at h
    have hr := h2Go_spec _ none r (fun x hx => by cases hx) hgo
    obtain ⟨u, p⟩ := r
    have h4 : (if u ≠ [] ∧ p ≠ [] ∧ u ≠ p then
        some (CredF.cred ((findLabelBefore ws i).getD u) u p) else none) = some f := h
    by_cases hne : u ≠ [] ∧ p ≠ [] ∧ u ≠ p
    · rw [if_pos hne] at h4
      cases h4
      exact ⟨_, u, p, rfl, hr.1, hr.2⟩
    · rw [if_neg hne] at h4
      cases h4

/-- What any finding of heuristic 3 looks like. -/
theorem h3Line_shape {line : List Char} {f : CredF} (h : h3Line line = some f) :
    ∃ lab v, f = CredF.pwd lab v ∧ looksLikePassword v = true := by
  unfold h3Line at h
  dsimp only at h
  split at h
  · cases h
  · split at h
    · split at h
      · split at h
        · cases h
        · split at h
          · cases h
            rename_i hcond _ _ hpw
            exact ⟨_, _, rfl, hpw.1⟩
          · cases h
      · cases h
    · cases h

/-- What any finding of heuristic 4 looks like. -/
theorem h4At_shape {ws : List (List Char)} {i : Nat} {f : CredF} (h : h4At ws i = some f) :
    ∃ lab w, f = CredF.pwd lab w ∧ looksLikePassword w = true := by
  unfold h4At at h
  dsimp only at h
  split at h
  · split at h
    · split at h
      · cases h
        rename_i hpw _ _
        exact ⟨_, _, rfl, hpw.1⟩
      · cases h
    · cases h
  · cases h

theorem dedupByPw_subset {l : List CredF} {seen : List (List Char)} {f : CredF}
    (h : f ∈ dedupByPw l seen) : f ∈ l := by
  induction l generalizing seen with
  | nil => cases h
  | cons c rest ih =>
    unfold dedupByPw at h
    by_cases hc : seen.contains c.pwOf = true
    · rw [if_pos hc] at h
      exact List.mem_cons_of_mem _ (ih h)
    · rw [if_neg hc] at h
      rcases List.mem_cons.mp h with rfl | hmem
      · exact List.mem_cons_self _ _
      · exact List.mem_cons_of_mem _ (ih hmem)

/-- Every primary finding's password passes `_looks_like_password`, and every
primary Credential's username passes `_looks_like_username`. -/
theorem detect_fields_shape {content : List Char} {f : CredF}
    (h : f ∈ detectCredentialsIntelligently content) :
    looksLikePassword (CredF.pwOf f) = true ∧
    (∀ lab u p, f = CredF.cred lab u p → looksLikeUsername u = true) := by
  unfold detectCredentialsIntelligently at h
  have hmem := dedupByPw_subset h
  rcases List.mem_append.mp hmem with h12mem | h34mem
  · rcases List.mem_append.mp h12mem with h12mem2 | h3mem
    · rcases List.mem_filterMap.mp h12mem2 with ⟨i, _, hi⟩
      dsimp only at hi
      split at hi
      · rcases h1At_shape hi with ⟨lab, w, rfl, hpw⟩
        exact ⟨hpw, fun lab2 u p heq => by cases heq⟩
      · split at hi
        · rcases h2At_shape hi with ⟨lab, u, pw2, rfl, hun, hpw⟩
          refine ⟨hpw, fun lab2 u2 p2 heq => ?_⟩
          cases heq
          exact hun
        · cases hi
    · rcases List.mem_filterMap.mp h3mem with ⟨line, _, hline⟩
      rcases h3Line_shape hline with ⟨lab, v, rfl, hpw⟩
      exact ⟨hpw, fun lab2 u p heq => by cases heq⟩
  · rcases List.mem_filterMap.mp h34mem with ⟨i, _, hi⟩
    rcases h4At_shape hi with ⟨lab, w, rfl, hpw⟩
    exact ⟨hpw, fun lab2 u p heq => by cases heq⟩

/-- C1 (amended): every finding of the primary detector has a password that is
not a reserved keyword and, for Credential findings, a username that is not a
reserved keyword (case-insensitively); and the input consisting solely of the
word `user` produces no Credential/Password finding at all — it is stored
only as a Note. -/
theorem primary_never_reserved_and_user_inert :
    (∀ content : List Char, ∀ f ∈ detectCredentialsIntelligently content,
      ¬ lowerL (CredF.pwOf f) ∈ keywordBlacklist ∧
      (∀ lab u p, f = CredF.cred lab u p → ¬ lowerL u ∈ keywordBlacklist)) ∧
    autoCategorizeAndStore ("user".data) = [StoreEvent.storeNote ("user".data)] := by
  constructor
  · intro content f hf
    have hshape := detect_fields_shape hf
    exact ⟨looksLikePassword_not_reserved hshape.1,
      fun lab u p heq => looksLikeUsername_not_reserved (hshape.2 lab u p heq)⟩
  · decide

/-! ## The normalizer: word structure, OCR substitutions, idempotence -/

/-- Each word produced by `wsplit` is nonempty and whitespace-free. -/
theorem wsplit_words : ∀ s : List Char, ∀ w ∈ wsplit s, w ≠ [] ∧ ∀ c ∈ w, isWS c = false := by
  intro s
  induction s using wsplit_rec with
  | h0 =>
    intro w hw
    exact absurd hw (List.not_mem_nil w)
  | h1 c t hc ih =>
    intro w hw
    rw [wsplit_cons_ws t hc] at hw
    exact ih w hw
  | h2 c t hc ih =>
    intro w hw
    rw [wsplit_cons_word t hc] at hw
    rcases List.mem_cons.mp hw with rfl | hw2
    · constructor
      · simp [List.takeWhile_cons, hc]
      · intro x hx
        have hx2 := List.mem_takeWhile_imp hx
        simpa using hx2
    · exact ih w hw2

/-- A nonempty whitespace-free string is a single word. -/
theorem wsplit_single {w : List Char} (hne : w ≠ []) (hws : ∀ c ∈ w, isWS c = false) :
    wsplit w = [w] := by
  cases w with
  | nil => exact absurd rfl hne
  | cons c t =>
    have hc : isWS c = false := hws c (List.mem_cons_self c t)
    rw [wsplit_cons_word t hc]
    have hdrop : (c :: t).dropWhile (fun x => !isWS x) = [] :=
      List.dropWhile_eq_nil_iff.mpr (fun x hx => by simp [hws x hx])
    have htake : (c :: t).takeWhile (fun x => !isWS x) = c :: t := by
      have happ := List.takeWhile_append_dropWhile (fun x => !isWS x) (c :: t)
      rw [hdrop, List.append_nil] at happ
      exact happ
    rw [htake, hdrop]
    rfl

/-- `wsplit` distributes over an append at a whitespace character. -/
theorem wsplit_append_ws {c : Char} (hc : isWS c = true) (b : List Char) :
    ∀ a : List Char, wsplit (a ++ c :: b) = wsplit a ++ wsplit b := by
  intro a
  induction a using wsplit_rec with
  | h0 =>
    rw [List.nil_append, wsplit_cons_ws b hc]
    rfl
  | h1 d t hd ih =>
    rw [List.cons_append, wsplit_cons_ws _ hd, wsplit_cons_ws t hd]
    exact ih
  | h2 d t hd ih =>
    have hsplit : (d :: t) ++ c :: b = d :: (t ++ c :: b) := rfl
    rw [hsplit, wsplit_cons_word _ hd, wsplit_cons_word t hd, ← hsplit]
    have hlen := congrArg List.length (List.takeWhile_append_dropWhile (fun x => !isWS x) (d :: t))
    rw [List.length_append] at hlen
    by_cases hall : (d :: t).dropWhile (fun x => !isWS x) = []
    · have htake : (d :: t).takeWhile (fun x => !isWS x) = d :: t := by
        have happ := List.takeWhile_append_dropWhile (fun x => !isWS x) (d :: t)
        rw [hall, List.append_nil] at happ
        exact happ
      have h1 : ((d :: t) ++ c :: b).takeWhile (fun x => !isWS x) = d :: t := by
        rw [List.takeWhile_append, if_pos (by rw [htake])]
        simp [List.takeWhile_cons, hc]
      have h2 : ((d :: t) ++ c :: b).dropWhile (fun x => !isWS x) = c :: b := by
        rw [List.dropWhile_append, if_pos (by rw [hall]; rfl)]
        simp [List.dropWhile_cons, hc]
      rw [h1, h2, htake, hall, wsplit_cons_ws b hc]
      rfl
    · have hlt : ((d :: t).takeWhile (fun x => !isWS x)).length ≠ (d :: t).length := by
        intro hq
        apply hall
        rw [← List.length_eq_zero]
        omega
      have h1 : ((d :: t) ++ c :: b).takeWhile (fun x => !isWS x) =
          (d :: t).takeWhile (fun x => !isWS x) := by
        rw [List.takeWhile_append, if_neg hlt]
      have h2 : ((d :: t) ++ c :: b).dropWhile (fun x => !isWS x) =
          (d :: t).dropWhile (fun x => !isWS x) ++ c :: b := by
        rw [List.dropWhile_append, if_neg (by simpa [List.isEmpty_iff] using hall)]
      rw [h1, h2, ih, List.cons_append]

theorem intercalate_single (s a : List Char) : List.intercalate s [a] = a := by
  simp [List.intercalate]

theorem intercalate_cons_two (s a b : List Char) (l : List (List Char)) :
    List.intercalate s (a :: b :: l) = a ++ s ++ List.intercalate s (b :: l) := by
  simp [List.intercalate, List.intersperse_cons_cons]

/-- Splitting an intercalation at a whitespace separator splits piecewise. -/
theorem wsplit_intercalate_flatten {c : Char} (hc : isWS c = true) :
    ∀ ls : List (List Char), wsplit (List.intercalate [c] ls) = (ls.map wsplit).flatten := by
  intro ls
  induction ls with
  | nil => rfl
  | cons a l ih =>
    cases l with
    | nil =>
      rw [intercalate_single]
      simp
    | cons b r =>
      rw [intercalate_cons_two, List.append_assoc, List.singleton_append,
        wsplit_append_ws hc _ a, ih]
      simp

/-- `wsplit` recovers the pieces of an intercalation of nonempty
whitespace-free words. -/
theorem wsplit_intercalate_words {c : Char} (hc : isWS c = true) :
    ∀ ws : List (List Char), (∀ w ∈ ws, w ≠ [] ∧ ∀ x ∈ w, isWS x = false) →
      wsplit (List.intercalate [c] ws) = ws := by
  intro ws h
  rw [wsplit_intercalate_flatten hc]
  induction ws with
  | nil => rfl
  | cons a l ih =>
    simp only [List.map_cons, List.flatten_cons]
    rw [wsplit_single (h a (List.mem_cons_self a l)).1 (h a (List.mem_cons_self a l)).2,
      ih (fun w hw => h w (List.mem_cons_of_mem a hw))]
    rfl

/-- The executable substring test agrees with `List.IsInfix`. -/
theorem isSubL_infix_iff {k s : List Char} : isSubL k s = true ↔ k <:+: s := by
  unfold isSubL
  rw [List.any_eq_true]
  constructor
  · rintro ⟨t, ht, hp⟩
    exact ((List.isPrefixOf_iff_prefix.mp hp).isInfix).trans
      ((List.mem_tails _ _).mp ht).isInfix
  · rintro ⟨a, b, rfl⟩
    refine ⟨k ++ b, (List.mem_tails _ _).mpr ⟨a, by rw [List.append_assoc]⟩, ?_⟩
    exact List.isPrefixOf_iff_prefix.mpr (List.prefix_append k b)

/-- A prefix that avoids the separator stops before it. -/
theorem prefix_append_mid {b : List Char} {c : Char} :
    ∀ a k : List Char, c ∉ k → k <+: a ++ c :: b → k <+: a := by
  intro a
  induction a with
  | nil =>
    intro k hck h
    cases k with
    | nil => exact List.nil_prefix
    | cons k0 kt =>
      rw [List.nil_append] at h
      rcases List.cons_prefix_cons.mp h with ⟨rfl, -⟩
      exact absurd (List.mem_cons_self _ _) hck
  | cons d a2 ih =>
    intro k hck h
    cases k with
    | nil => exact List.nil_prefix
    | cons k0 kt =>
      rw [List.cons_append] at h
      rcases List.cons_prefix_cons.mp h with ⟨rfl, h2⟩
      exact List.cons_prefix_cons.mpr
        ⟨rfl, ih kt (fun hm => hck (List.mem_cons_of_mem _ hm)) h2⟩

/-- An infix that avoids the separator lies wholly on one side of it. -/
theorem infix_append_mid {b : List Char} {c : Char} :
    ∀ a k : List Char, c ∉ k → k <:+: a ++ c :: b → k <:+: a ∨ k <:+: b := by
  intro a
  induction a with
  | nil =>
    intro k hck h
    rw [List.nil_append] at h
    rcases List.infix_cons_iff.mp h with hp | hi
    · cases k with
      | nil => exact Or.inl List.nil_infix
      | cons k0 kt =>
        rcases List.cons_prefix_cons.mp hp with ⟨rfl, -⟩
        exact absurd (List.mem_cons_self _ _) hck
    · exact Or.inr hi
  | cons d a2 ih =>
    intro k hck h
    rw [List.cons_append] at h
    rcases List.infix_cons_iff.mp h with hp | hi
    · cases k with
      | nil => exact Or.inl List.nil_infix
      | cons k0 kt =>
        rcases List.cons_prefix_cons.mp hp with ⟨rfl, h2⟩
        have h3 : kt <+: a2 :=
          prefix_append_mid a2 kt (fun hm => hck (List.mem_cons_of_mem _ hm)) h2
        exact Or.inl (List.cons_prefix_cons.mpr ⟨rfl, h3⟩).isInfix
    · rcases ih k hck hi with h1 | h1
      · exact Or.inl (List.infix_cons h1)
      · exact Or.inr h1

/-- A nonempty separator-free key occurs in an intercalation exactly when it
occurs in one of the pieces. -/
theorem isSub_intercalate {k : List Char} {c : Char} (hk : k ≠ []) (hck : c ∉ k) :
    ∀ vs : List (List Char),
      (isSubL k (List.intercalate [c] vs) = true ↔ ∃ v ∈ vs, isSubL k v = true) := by
  intro vs
  induction vs with
  | nil =>
    constructor
    · intro h
      have h2 : k <:+: ([] : List Char) := isSubL_infix_iff.mp h
      exact absurd (List.eq_nil_of_infix_nil h2) hk
    · rintro ⟨v, hv, -⟩
      exact absurd hv (List.not_mem_nil v)
  | cons a l ih =>
    cases l with
    | nil =>
      rw [intercalate_single]
      constructor
      · intro h
        exact ⟨a, List.mem_cons_self a [], h⟩
      · rintro ⟨v, hv, hsub⟩
        rcases List.mem_cons.mp hv with rfl | h0
        · exact hsub
        · exact absurd h0 (List.not_mem_nil v)
    | cons b2 r =>
      rw [intercalate_cons_two, List.append_assoc, List.singleton_append]
      constructor
      · intro h
        rcases infix_append_mid a k hck (isSubL_infix_iff.mp h) with h1 | h1
        · exact ⟨a, List.mem_cons_self _ _, isSubL_infix_iff.mpr h1⟩
        · rcases ih.mp (isSubL_infix_iff.mpr h1) with ⟨v, hv, hs⟩
          exact ⟨v, List.mem_cons_of_mem a hv, hs⟩
      · rintro ⟨v, hv, hsub⟩
        rw [isSubL_infix_iff]
        rcases List.mem_cons.mp hv with rfl | hmem
        · exact (isSubL_infix_iff.mp hsub).trans (List.prefix_append v _).isInfix
        · have h1 : k <:+: List.intercalate [c] (b2 :: r) :=
            isSubL_infix_iff.mp (ih.mpr ⟨v, hmem, hsub⟩)
          refine h1.trans (List.IsSuffix.isInfix ⟨a ++ [c], ?_⟩)
          rw [List.append_assoc, List.singleton_append]

/-- A string without line breaks splits into itself. -/
theorem splitOn_eq_self_of_not_mem {s : List Char} (h : ('\n' : Char) ∉ s) :
    s.splitOn '\n' = [s] := by
  induction s with
  | nil => rfl
  | cons c t ih =>
    have hc : c ≠ '\n' := fun hcc => h (by simp [hcc])
    have ih2 := ih (fun hm => h (List.mem_cons_of_mem c hm))
    simp only [List.splitOn] at ih2 ⊢
    rw [List.splitOnP_cons, if_neg (by simpa using hc), ih2, List.modifyHead_cons]

/-- Lowercasing commutes with single-character intercalation. -/
theorem lowerL_intercalate {c : Char} :
    ∀ ls : List (List Char),
      lowerL (List.intercalate [c] ls) = List.intercalate [c.toLower] (ls.map lowerL) := by
  intro ls
  induction ls with
  | nil => rfl
  | cons a l ih =>
    cases l with
    | nil =>
      rw [List.map_cons, List.map_nil, intercalate_single, intercalate_single]
    | cons b r =>
      rw [intercalate_cons_two]
      unfold lowerL
      rw [List.map_append, List.map_append]
      unfold lowerL at ih
      rw [ih, List.append_assoc]
      rfl

/-- Occurrence of a lowercase keyword in a lowercased intercalation reduces to
occurrence in one of the pieces. -/
theorem isSub_lower_intercalate {k : List Char} {c : Char} (hk : k ≠ []) (hck : c ∉ k)
    (hcl : c.toLower = c) (ls : List (List Char)) :
    (isSubL k (lowerL (List.intercalate [c] ls)) = true ↔
      ∃ l ∈ ls, isSubL k (lowerL l) = true) := by
  rw [lowerL_intercalate, hcl, isSub_intercalate hk hck (ls.map lowerL)]
  constructor
  · rintro ⟨v, hv, hs⟩
    rcases List.mem_map.mp hv with ⟨l, hl, rfl⟩
    exact ⟨l, hl, hs⟩
  · rintro ⟨l, hl, hs⟩
    exact ⟨lowerL l, List.mem_map_of_mem _ hl, hs⟩

theorem applyOcrFixes_eq_fold (w : List Char) :
    applyOcrFixes w = List.foldl ocrStep w ocrReplacements := rfl

theorem ocrStep_eq (u : List Char) (q : Char × Char) :
    ocrStep u q = if u.contains q.1 ∧ 2 < u.length then replaceChar q.1 q.2 u else u := rfl

theorem replaceChar_length (o n : Char) (w : List Char) :
    (replaceChar o n w).length = w.length := by
  simp [replaceChar]

theorem mem_replaceChar {o n x : Char} {w : List Char} (h : x ∈ replaceChar o n w) :
    x ∈ w ∨ x = n := by
  unfold replaceChar at h
  rcases List.mem_map.mp h with ⟨c, hc, hcx⟩
  by_cases hco : (c == o) = true
  · rw [if_pos hco] at hcx
    exact Or.inr hcx.symm
  · rw [if_neg hco] at hcx
    subst hcx
    exact Or.inl hc

theorem ocrFold_length : ∀ reps : List (Char × Char), ∀ w : List Char,
    (List.foldl ocrStep w reps).length = w.length := by
  intro reps
  induction reps with
  | nil => intro w; rfl
  | cons q rest ih =>
    intro w
    rw [List.foldl_cons, ih]
    rw [ocrStep_eq]
    by_cases hq : w.contains q.1 ∧ 2 < w.length
    · rw [if_pos hq, replaceChar_length]
    · rw [if_neg hq]

theorem ocrFold_wsFree : ∀ reps : List (Char × Char), ∀ w : List Char,
    (∀ p ∈ reps, isWS p.2 = false) → (∀ c ∈ w, isWS c = false) →
    ∀ c ∈ List.foldl ocrStep w reps, isWS c = false := by
  intro reps
  induction reps with
  | nil => intro w _ hw; exact hw
  | cons q rest ih =>
    intro w hreps hw
    rw [List.foldl_cons]
    refine ih _ (fun p hp => hreps p (List.mem_cons_of_mem q hp)) ?_
    rw [ocrStep_eq]
    by_cases hq : w.contains q.1 ∧ 2 < w.length
    · rw [if_pos hq]
      intro c hc
      rcases mem_replaceChar hc with h1 | rfl
      · exact hw c h1
      · exact hreps q (List.mem_cons_self q rest)
    · rw [if_neg hq]
      exact hw

theorem isSub_lower_replaceChar {k u : List Char} {o n : Char} (ho : o.toLower ∉ k)
    (h : isSubL k (lowerL u) = true) :
    isSubL k (lowerL (replaceChar o n u)) = true := by
  rcases isSubL_infix_iff.mp h with ⟨x, y, hxy⟩
  have hxy2 : List.map Char.toLower u = x ++ (k ++ y) := by
    rw [← List.append_assoc, hxy]
    rfl
  rcases List.map_eq_append_iff.mp hxy2 with ⟨a, z, rfl, hma, hmz⟩
  rcases List.map_eq_append_iff.mp hmz with ⟨m, b2, rfl, hmm, hmb⟩
  have hmfix : replaceChar o n m = m := by
    have h1 : ∀ c ∈ m, (if c == o then n else c) = c := by
      intro c hc
      have hck : c.toLower ∈ k := by
        rw [← hmm]
        exact List.mem_map_of_mem Char.toLower hc
      have hco : (c == o) = false := by
        by_contra hcc
        rw [Bool.not_eq_false, beq_iff_eq] at hcc
        subst hcc
        exact ho hck
      simp [hco]
    unfold replaceChar
    calc m.map (fun c => if c == o then n else c) = m.map id :=
          List.map_congr_left (fun c hc => by simpa using h1 c hc)
      _ = m := List.map_id m
  have hsplit : replaceChar o n (a ++ (m ++ b2)) =
      replaceChar o n a ++ (replaceChar o n m ++ replaceChar o n b2) := by
    unfold replaceChar
    rw [List.map_append, List.map_append]
  rw [isSubL_infix_iff]
  refine ⟨lowerL (replaceChar o n a), lowerL (replaceChar o n b2), ?_⟩
  rw [hsplit, hmfix]
  unfold lowerL
  rw [List.map_append, List.map_append, hmm, List.append_assoc]

theorem ocrFold_preserves_sub {k : List Char} :
    ∀ reps : List (Char × Char), ∀ u : List Char,
    (∀ p ∈ reps, p.1.toLower ∉ k) → isSubL k (lowerL u) = true →
    isSubL k (lowerL (List.foldl ocrStep u reps)) = true := by
  intro reps
  induction reps with
  | nil => intro u _ h; exact h
  | cons q rest ih =>
    intro u hreps h
    rw [List.foldl_cons]
    refine ih _ (fun p hp => hreps p (List.mem_cons_of_mem q hp)) ?_
    rw [ocrStep_eq]
    by_cases hq : u.contains q.1 ∧ 2 < u.length
    · rw [if_pos hq]
      exact isSub_lower_replaceChar (hreps q (List.mem_cons_self q rest)) h
    · rw [if_neg hq]
      exact h

theorem not_mem_replaceChar_self {o n : Char} {w : List Char} (hon : o ≠ n) :
    o ∉ replaceChar o n w := by
  intro hmem
  rcases List.mem_map.mp hmem with ⟨c, _, hcx⟩
  by_cases hco : (c == o) = true
  · rw [if_pos hco] at hcx
    exact hon hcx.symm
  · rw [if_neg hco] at hcx
    subst hcx
    simp at hco

theorem not_mem_replaceChar {o n x : Char} {w : List Char} (hx : x ∉ w) (hn : x ≠ n) :
    x ∉ replaceChar o n w := by
  intro hmem
  rcases mem_replaceChar hmem with h1 | rfl
  · exact hx h1
  · exact hn rfl

theorem ocrFold_not_mem : ∀ reps : List (Char × Char), ∀ u : List Char, ∀ x : Char,
    x ∉ u → (∀ p ∈ reps, x ≠ p.2) → x ∉ List.foldl ocrStep u reps := by
  intro reps
  induction reps with
  | nil => intro u x hx _; exact hx
  | cons q rest ih =>
    intro u x hx hreps
    rw [List.foldl_cons]
    refine ih _ x ?_ (fun p hp => hreps p (List.mem_cons_of_mem q hp))
    rw [ocrStep_eq]
    by_cases hq : u.contains q.1 ∧ 2 < u.length
    · rw [if_pos hq]
      exact not_mem_replaceChar hx (hreps q (List.mem_cons_self q rest))
    · rw [if_neg hq]
      exact hx

theorem ocrFold_no_old {reps : List (Char × Char)}
    (hdisj : ∀ p ∈ reps, ∀ q ∈ reps, p.1 ≠ q.2) :
    ∀ u : List Char, 2 < u.length → ∀ p ∈ reps, p.1 ∉ List.foldl ocrStep u reps := by
  induction reps with
  | nil => intro u _ p hp; exact absurd hp (List.not_mem_nil p)
  | cons q rest ih =>
    intro u hlen p hp
    rw [List.foldl_cons]
    have hlen2 : 2 < (ocrStep u q).length := by
      rw [ocrStep_eq]
      by_cases hq : u.contains q.1 ∧ 2 < u.length
      · rw [if_pos hq, replaceChar_length]
        exact hlen
      · rw [if_neg hq]
        exact hlen
    rcases List.mem_cons.mp hp with rfl | hp2
    · have hq1 : p.1 ∉ ocrStep u p := by
        rw [ocrStep_eq]
        by_cases hq : u.contains p.1 ∧ 2 < u.length
        · rw [if_pos hq]
          exact not_mem_replaceChar_self
            (hdisj p (List.mem_cons_self p rest) p (List.mem_cons_self p rest))
        · rw [if_neg hq]
          intro hmem
          exact hq ⟨List.elem_iff.mpr hmem, hlen⟩
      exact ocrFold_not_mem rest (ocrStep u p) p.1 hq1
        (fun r hr => hdisj p (List.mem_cons_self p rest) r (List.mem_cons_of_mem p hr))
    · exact ih
        (fun p2 hp2m q2 hq2 => hdisj p2 (List.mem_cons_of_mem q hp2m) q2 (List.mem_cons_of_mem q hq2))
        (ocrStep u q) hlen2 p hp2

theorem ocrFold_skip_all : ∀ reps : List (Char × Char), ∀ u : List Char,
    (∀ p ∈ reps, p.1 ∉ u) → List.foldl ocrStep u reps = u := by
  intro reps
  induction reps with
  | nil => intro u _; rfl
  | cons q rest ih =>
    intro u hu
    rw [List.foldl_cons]
    have hstep : ocrStep u q = u := by
      rw [ocrStep_eq, if_neg]
      intro hcond
      exact hu q (List.mem_cons_self q rest) (List.elem_iff.mp hcond.1)
    rw [hstep]
    exact ih u (fun p hp => hu p (List.mem_cons_of_mem q hp))

theorem ocrFold_short : ∀ reps : List (Char × Char), ∀ u : List Char,
    u.length ≤ 2 → List.foldl ocrStep u reps = u := by
  intro reps
  induction reps with
  | nil => intro u _; rfl
  | cons q rest ih =>
    intro u hu
    rw [List.foldl_cons]
    have hstep : ocrStep u q = u := by
      rw [ocrStep_eq, if_neg]
      intro hcond
      omega
    rw [hstep]
    exact ih u hu

/-- The OCR-substitution pass is idempotent. -/
theorem applyOcrFixes_idem (w : List Char) :
    applyOcrFixes (applyOcrFixes w) = applyOcrFixes w := by
  rw [applyOcrFixes_eq_fold, applyOcrFixes_eq_fold]
  by_cases hlen : 2 < w.length
  · have hdisj : ∀ p ∈ ocrReplacements, ∀ q ∈ ocrReplacements, p.1 ≠ q.2 := by decide
    exact ocrFold_skip_all ocrReplacements _ (ocrFold_no_old hdisj w hlen)
  · rw [ocrFold_short ocrReplacements w (by omega), ocrFold_short ocrReplacements w (by omega)]

theorem applyOcrFixes_length (w : List Char) : (applyOcrFixes w).length = w.length := by
  rw [applyOcrFixes_eq_fold]
  exact ocrFold_length ocrReplacements w

theorem applyOcrFixes_wsFree {w : List Char} (h : ∀ c ∈ w, isWS c = false) :
    ∀ c ∈ applyOcrFixes w, isWS c = false := by
  rw [applyOcrFixes_eq_fold]
  exact ocrFold_wsFree ocrReplacements w (by decide) h

theorem applyOcrFixes_preserves_keyword {k w : List Char} (hk : k ∈ ocrKeywords)
    (h : isSubL k (lowerL w) = true) :
    isSubL k (lowerL (applyOcrFixes w)) = true := by
  rw [applyOcrFixes_eq_fold]
  refine ocrFold_preserves_sub ocrReplacements w ?_ h
  have hall : ∀ k2 ∈ ocrKeywords, ∀ p ∈ ocrReplacements, p.1.toLower ∉ k2 := by decide
  exact hall k hk

theorem cleanLines_eq (s : List Char) :
    cleanLines s = List.intercalate ['\n'] (linesOf s) := rfl

/-- Characters of a single-character intercalation. -/
theorem mem_intercalate_single {x c : Char} :
    ∀ ls : List (List Char), x ∈ List.intercalate [c] ls → x = c ∨ ∃ l ∈ ls, x ∈ l := by
  intro ls
  induction ls with
  | nil =>
    intro h
    exact absurd h (List.not_mem_nil x)
  | cons a l ih =>
    cases l with
    | nil =>
      rw [intercalate_single]
      intro h
      exact Or.inr ⟨a, List.mem_cons_self a [], h⟩
    | cons b r =>
      rw [intercalate_cons_two]
      intro h
      rcases List.mem_append.mp h with h1 | h2
      · rcases List.mem_append.mp h1 with h3 | h4
        · exact Or.inr ⟨a, List.mem_cons_self _ _, h3⟩
        · exact Or.inl (List.mem_singleton.mp h4)
      · rcases ih h2 with h5 | ⟨l2, hl2, hxl2⟩
        · exact Or.inl h5
        · exact Or.inr ⟨l2, List.mem_cons_of_mem a hl2, hxl2⟩

/-- A space-joined nonempty list of nonempty words is nonempty. -/
theorem intercalate_words_ne_nil {c : Char} {w : List Char} {r : List (List Char)}
    (hw : w ≠ []) : List.intercalate [c] (w :: r) ≠ [] := by
  cases r with
  | nil =>
    rw [intercalate_single]
    exact hw
  | cons b r2 =>
    rw [intercalate_cons_two]
    intro h
    rcases List.append_eq_nil.mp h with ⟨h1, -⟩
    rcases List.append_eq_nil.mp h1 with ⟨h2, -⟩
    exact hw h2

theorem wsplit_eq_nil_of_intercalate_nil {line : List Char}
    (h : List.intercalate [' '] (wsplit line) = []) : wsplit line = [] := by
  cases hws : wsplit line with
  | nil => rfl
  | cons w r =>
    have hwne := (wsplit_words line w (by rw [hws]; exact List.mem_cons_self w r)).1
    rw [hws] at h
    exact absurd h (intercalate_words_ne_nil hwne)

/-- Each member of `linesOf` is the space-joined word list of some input line. -/
theorem mem_linesOf {s l : List Char} (h : l ∈ linesOf s) :
    ∃ line ∈ s.splitOn '\n',
      l = List.intercalate [' '] (wsplit line) ∧ wsplit line ≠ [] := by
  unfold linesOf at h
  rcases List.mem_filterMap.mp h with ⟨line, hline, heq⟩
  have heq2 : (if List.intercalate [' '] (wsplit line) = [] then none
      else some (List.intercalate [' '] (wsplit line))) = some l := heq
  by_cases hcl : List.intercalate [' '] (wsplit line) = []
  · rw [if_pos hcl] at heq2
    cases heq2
  · rw [if_neg hcl] at heq2
    cases heq2
    exact ⟨line, hline, rfl, fun hz => hcl (by rw [hz]; rfl)⟩

/-- Words of the line-cleaned content are exactly the words of the content. -/
theorem wsplit_cleanLines (s : List Char) : wsplit (cleanLines s) = wsplit s := by
  rw [cleanLines_eq, wsplit_intercalate_flatten (show isWS '\n' = true from rfl)]
  conv_rhs => rw [← List.intercalate_splitOn s '\n']
  rw [wsplit_intercalate_flatten (show isWS '\n' = true from rfl)]
  unfold linesOf
  generalize s.splitOn '\n' = L
  induction L with
  | nil => rfl
  | cons line L2 ih =>
    by_cases hcl : List.intercalate [' '] (wsplit line) = []
    · have hg : (fun line => 
          let cleaned := List.intercalate [' '] (wsplit line)
          if cleaned = [] then none else some cleaned) line = (none : Option (List Char)) :=
        if_pos hcl
      rw [show List.filterMap (fun line => 
          let cleaned := List.intercalate [' '] (wsplit line)
          if cleaned = [] then none else some cleaned) (line :: L2) = List.filterMap (fun line => 
          let cleaned := List.intercalate [' '] (wsplit line)
          if cleaned = [] then none else some cleaned) L2 from
          List.filterMap_cons_none hg,
        List.map_cons, List.flatten_cons,
        wsplit_eq_nil_of_intercalate_nil hcl, List.nil_append]
      exact ih
    · have hg : (fun line => 
          let cleaned := List.intercalate [' '] (wsplit line)
          if cleaned = [] then none else some cleaned) line =
          some (List.intercalate [' '] (wsplit line)) :=
        if_neg hcl
      rw [show List.filterMap (fun line => 
          let cleaned := List.intercalate [' '] (wsplit line)
          if cleaned = [] then none else some cleaned) (line :: L2) =
          List.intercalate [' '] (wsplit line) :: List.filterMap (fun line => 
          let cleaned := List.intercalate [' '] (wsplit line)
          if cleaned = [] then none else some cleaned) L2 from
          List.filterMap_cons_some hg,
        List.map_cons, List.map_cons, List.flatten_cons, List.flatten_cons,
        wsplit_intercalate_words (show isWS ' ' = true from rfl) (wsplit line) (wsplit_words line),
        ih]

theorem ocrKeywords_props :
    ∀ k ∈ ocrKeywords, k ≠ [] ∧ ('\n' : Char) ∉ k ∧ (' ' : Char) ∉ k := by
  decide

theorem hasOcr_iff (s : List Char) :
    hasOcrKeyword s = true ↔ ∃ k ∈ ocrKeywords, isSubL k (lowerL s) = true := by
  unfold hasOcrKeyword
  rw [List.any_eq_true]

/-- The normalizer in closed form: the words of the line-cleaned content,
conditionally OCR-fixed, joined by single spaces. -/
theorem cleanTextContent_shape (s : List Char) :
    cleanTextContent s = List.intercalate [' ']
      ((wsplit (cleanLines s)).map
        (fun w => if hasOcrKeyword (cleanLines s) = true then applyOcrFixes w else w)) := by
  by_cases hs : s = []
  · subst hs
    rfl
  · unfold cleanTextContent
    rw [if_neg hs]

/-- The conditionally fixed words are nonempty and whitespace-free. -/
theorem cleanWords_good (s : List Char) :
    ∀ v ∈ (wsplit (cleanLines s)).map
      (fun w => if hasOcrKeyword (cleanLines s) = true then applyOcrFixes w else w),
      v ≠ [] ∧ ∀ x ∈ v, isWS x = false := by
  intro v hv
  rcases List.mem_map.mp hv with ⟨w, hw, rfl⟩
  have hW := wsplit_words (cleanLines s) w hw
  by_cases hocr : hasOcrKeyword (cleanLines s) = true
  · rw [if_pos hocr]
    constructor
    · intro hnil
      have hlen := applyOcrFixes_length w
      rw [hnil] at hlen
      exact hW.1 (List.eq_nil_of_length_eq_zero hlen.symm)
    · exact applyOcrFixes_wsFree hW.2
  · rw [if_neg hocr]
    exact hW

theorem wsplit_cleanTextContent (s : List Char) :
    wsplit (cleanTextContent s) = (wsplit (cleanLines s)).map
      (fun w => if hasOcrKeyword (cleanLines s) = true then applyOcrFixes w else w) := by
  rw [cleanTextContent_shape]
  exact wsplit_intercalate_words (show isWS ' ' = true from rfl) _ (cleanWords_good s)

theorem newline_not_mem_cleanTextContent (s : List Char) :
    ('\n' : Char) ∉ cleanTextContent s := by
  rw [cleanTextContent_shape]
  intro hmem
  rcases mem_intercalate_single _ hmem with h1 | ⟨v, hv, hxv⟩
  · cases h1
  · have := (cleanWords_good s v hv).2 '\n' hxv
    simp [isWS] at this

/-- A trigger keyword occurs in the line-cleaned content exactly when it
occurs in one of its words. -/
theorem isSub_lower_cleanLines {k s : List Char} (hk : k ∈ ocrKeywords) :
    isSubL k (lowerL (cleanLines s)) = true ↔
      ∃ u ∈ wsplit (cleanLines s), isSubL k (lowerL u) = true := by
  obtain ⟨hne, hnl, hsp⟩ := ocrKeywords_props k hk
  rw [cleanLines_eq, isSub_lower_intercalate hne hnl (by rfl) (linesOf s),
    wsplit_intercalate_flatten (show isWS '\n' = true from rfl) (linesOf s)]
  constructor
  · rintro ⟨l, hl, hsub⟩
    rcases mem_linesOf hl with ⟨line, hline, heq, hwne⟩
    have hws : wsplit l = wsplit line := by
      rw [heq]
      exact wsplit_intercalate_words (show isWS ' ' = true from rfl) (wsplit line)
        (wsplit_words line)
    rw [heq, isSub_lower_intercalate hne hsp (by rfl) (wsplit line)] at hsub
    rcases hsub with ⟨u, hu, hsubu⟩
    refine ⟨u, ?_, hsubu⟩
    rw [List.mem_flatten]
    refine ⟨wsplit l, List.mem_map_of_mem wsplit hl, ?_⟩
    rw [hws]
    exact hu
  · rintro ⟨u, hu, hsubu⟩
    rw [List.mem_flatten] at hu
    rcases hu with ⟨wsl, hwsl, humem⟩
    rcases List.mem_map.mp hwsl with ⟨l, hl, rfl⟩
    rcases mem_linesOf hl with ⟨line, hline, heq, hwne⟩
    refine ⟨l, hl, ?_⟩
    have hws : wsplit l = wsplit line := by
      rw [heq]
      exact wsplit_intercalate_words (show isWS ' ' = true from rfl) (wsplit line)
        (wsplit_words line)
    rw [heq, isSub_lower_intercalate hne hsp (by rfl) (wsplit line)]
    refine ⟨u, ?_, hsubu⟩
    rw [← hws]
    exact humem

/-- If the trigger fires on the line-cleaned content, it also fires on the
normalizer's output. -/
theorem hasOcr_output_of_hasOcr {s : List Char} (hocr : hasOcrKeyword (cleanLines s) = true) :
    hasOcrKeyword (cleanTextContent s) = true := by
  rcases (hasOcr_iff _).mp hocr with ⟨k, hkmem, hksub⟩
  rcases (isSub_lower_cleanLines hkmem).mp hksub with ⟨u, hu, husub⟩
  refine (hasOcr_iff _).mpr ⟨k, hkmem, ?_⟩
  obtain ⟨hne, -, hsp⟩ := ocrKeywords_props k hkmem
  rw [cleanTextContent_shape, isSub_lower_intercalate hne hsp (by rfl) _]
  refine ⟨applyOcrFixes u, ?_, applyOcrFixes_preserves_keyword hkmem husub⟩
  have hmm := List.mem_map_of_mem
    (fun w => if hasOcrKeyword (cleanLines s) = true then applyOcrFixes w else w) hu
  have hmm2 : (if hasOcrKeyword (cleanLines s) = true then applyOcrFixes u else u) ∈
      List.map (fun w => if hasOcrKeyword (cleanLines s) = true then applyOcrFixes w else w)
        (wsplit (cleanLines s)) := hmm
  rw [if_pos hocr] at hmm2
  exact hmm2

/-- If the trigger does not fire on the line-cleaned content, it does not fire
on the normalizer's output either. -/
theorem hasOcr_output_of_not_hasOcr {s : List Char}
    (hocr : ¬ hasOcrKeyword (cleanLines s) = true) :
    hasOcrKeyword (cleanTextContent s) = false := by
  by_contra hcc
  rw [Bool.not_eq_false] at hcc
  rcases (hasOcr_iff _).mp hcc with ⟨k, hkmem, hksub⟩
  obtain ⟨hne, -, hsp⟩ := ocrKeywords_props k hkmem
  rw [cleanTextContent_shape, isSub_lower_intercalate hne hsp (by rfl) _] at hksub
  rcases hksub with ⟨v, hv, hvsub⟩
  rcases List.mem_map.mp hv with ⟨u, hu, rfl⟩
  rw [if_neg hocr] at hvsub
  exact hocr ((hasOcr_iff _).mpr ⟨k, hkmem, (isSub_lower_cleanLines hkmem).mpr ⟨u, hu, hvsub⟩⟩)

/-- C3: the normalizer `_clean_text_content` is idempotent. -/
theorem cleanTextContent_idempotent (s : List Char) :
    cleanTextContent (cleanTextContent s) = cleanTextContent s := by
  by_cases hout : cleanTextContent s = []
  · rw [hout]
    rfl
  · have hnl := newline_not_mem_cleanTextContent s
    have hfix : List.intercalate [' '] (wsplit (cleanTextContent s)) = cleanTextContent s := by
      rw [wsplit_cleanTextContent, ← cleanTextContent_shape]
    have hclean : cleanLines (cleanTextContent s) = cleanTextContent s := by
      rw [cleanLines_eq]
      have hones : linesOf (cleanTextContent s) =
          [List.intercalate [' '] (wsplit (cleanTextContent s))] := by
        unfold linesOf
        rw [splitOn_eq_self_of_not_mem hnl]
        have hg : (fun line => 
            let cleaned := List.intercalate [' '] (wsplit line)
            if cleaned = [] then none else some cleaned) (cleanTextContent s) =
            some (List.intercalate [' '] (wsplit (cleanTextContent s))) := by
          have : ¬ List.intercalate [' '] (wsplit (cleanTextContent s)) = [] := by
            rw [hfix]
            exact hout
          exact if_neg this
        rw [show List.filterMap (fun line => 
            let cleaned := List.intercalate [' '] (wsplit line)
            if cleaned = [] then none else some cleaned) [cleanTextContent s] =
            List.intercalate [' '] (wsplit (cleanTextContent s)) ::
            List.filterMap (fun line => 
            let cleaned := List.intercalate [' '] (wsplit line)
            if cleaned = [] then none else some cleaned) [] from
            List.filterMap_cons_some hg]
        rfl
      rw [hones, intercalate_single, hfix]
    rw [cleanTextContent_shape (cleanTextContent s), hclean, wsplit_cleanTextContent s]
    by_cases hocr : hasOcrKeyword (cleanLines s) = true
    · have hocr2 := hasOcr_output_of_hasOcr hocr
      have hmap2 : List.map
          (fun w => if hasOcrKeyword (cleanTextContent s) = true then applyOcrFixes w else w)
          (List.map (fun w => if hasOcrKeyword (cleanLines s) = true then applyOcrFixes w else w)
            (wsplit (cleanLines s))) =
          List.map (fun w => if hasOcrKeyword (cleanLines s) = true then applyOcrFixes w else w)
            (wsplit (cleanLines s)) := by
        rw [List.map_map]
        refine List.map_congr_left ?_
        intro w hw
        simp only [Function.comp]
        rw [if_pos hocr, if_pos hocr2, applyOcrFixes_idem]
      rw [hmap2, ← cleanTextContent_shape]
    · have hocr2 := hasOcr_output_of_not_hasOcr hocr
      have hocr3 : ¬ hasOcrKeyword (cleanTextContent s) = true := by
        rw [hocr2]
        exact Bool.false_ne_true
      have hmap2 : List.map
          (fun w => if hasOcrKeyword (cleanTextContent s) = true then applyOcrFixes w else w)
          (List.map (fun w => if hasOcrKeyword (cleanLines s) = true then applyOcrFixes w else w)
            (wsplit (cleanLines s))) =
          List.map (fun w => if hasOcrKeyword (cleanLines s) = true then applyOcrFixes w else w)
            (wsplit (cleanLines s)) := by
        rw [List.map_map]
        refine List.map_congr_left ?_
        intro w hw
        simp only [Function.comp]
        rw [if_neg hocr, if_neg hocr3]
      rw [hmap2, ← cleanTextContent_shape]

/-- C8 (amended): the normalizer does not rejoin cleaned lines with line
breaks; its output never contains a line break at all, and its word list is
exactly the whitespace-split word list of the whole input, with each word
OCR-substituted when the cleaned content mentions a trigger keyword. -/
theorem normalizer_single_line_output :
    ∀ s : List Char, ('\n' : Char) ∉ cleanTextContent s ∧
      wsplit (cleanTextContent s) = (wsplit s).map
        (fun w => if hasOcrKeyword (cleanLines s) = true then applyOcrFixes w else w) := by
  intro s
  refine ⟨newline_not_mem_cleanTextContent s, ?_⟩
  rw [wsplit_cleanTextContent s, wsplit_cleanLines s]

end PW

